import Mathlib

/-!
# ParallelHW: the dynamic task pool of `HW1/dynamic.c` and the static partitioner of `HW1/static.c`

A shallow embedding of `master_process`, `slave_process`, `run_sequential` and `main`
of `src/HW1/dynamic.c`, and of the partition loop of `main` and of `calculate_partial_sum`
of `src/HW1/static.c`.

Modelling conventions.

* The C `int` variables of `master_process` (`tasks_sent`, `tasks_received`,
  `total_tasks`, `initial_tasks`, the loop indices, the ranks) start at a non-negative
  value and are only incremented, up to `size * size` or `num_slaves`; they are embedded
  as `Nat`.  The source fixes `size = SIZE = 30`; here `size` is a parameter and `SIZE`
  the constant, so no 32-bit overflow occurs at the source's value.
* `heavy` is a parameter: a function of the two coordinates into a commutative additive
  monoid `α` (the source accumulates `double`s; rounding is not modelled).
* Every `MPI_Send` and every completed `MPI_Recv` of the master is logged, in program
  order, in the field `trace`.  The trace is the only link between the master and the
  workers: the results worker `w` can deliver are those `slave_process` produces on the
  messages the trace shows were sent to `w`.
* `MPI_Recv(..., MPI_ANY_SOURCE, RESULT_TAG, ...)` is non-deterministic.  The scheduler of
  a run is a function `sched : Nat → Nat`; at the `k`-th receive the result delivered is
  that of the ready worker number `sched k` modulo the number of ready workers.  When no
  worker can ever deliver a result the receive blocks forever, which is `none`.
* In `static.c` the row bounds `x_start` and `x_end` are embedded as `Int`, since an empty
  range has `x_end = x_start - 1`; a division by zero is the error value `none`.
-/

namespace ParallelHW

/-! ## Constants and data model -/

/-- Grid side length, `#define SIZE 30`. -/
def SIZE : Nat := 30

/-- Tag of a task message, `#define TASK_TAG 1`. -/
def TASK_TAG : Nat := 1

/-- Tag of a result message, `#define RESULT_TAG 2`. -/
def RESULT_TAG : Nat := 2

/-- Tag of a termination message, `#define TERMINATE_TAG 3`. -/
def TERMINATE_TAG : Nat := 3

/-- The struct `Task` of the source: one grid coordinate. -/
structure Task where
  x : Nat
  y : Nat
  deriving DecidableEq, Repr

/-- A message from the master to a worker: its MPI tag and its body.  A `TASK` carries
`sizeof(Task)` bytes (`some task`), a `TERMINATE` carries zero bytes (`none`). -/
structure Message where
  tag : Nat
  body : Option Task
  deriving DecidableEq, Repr

/-- One communication of the master, as logged in the trace. -/
inductive Event (α : Type) where
  | send (dest : Nat) (m : Message)
  | recv (src : Nat) (value : α)
  deriving DecidableEq, Repr

/-- The local variables of `master_process`, and the log of its communications. -/
structure Master (α : Type) where
  final_answer : α
  tasks_sent : Nat
  tasks_received : Nat
  trace : List (Event α)
  deriving DecidableEq, Repr

/-- The task message for linear index `i`, lines 82-84 and 102-104:
`task.x = i / size; task.y = i % size`. -/
def taskMsg (size i : Nat) : Message :=
  ⟨TASK_TAG, some ⟨i / size, i % size⟩⟩

/-- The termination message, lines 108 and 114: `MPI_Send(NULL, 0, ..., TERMINATE_TAG, ...)`. -/
def terminateMsg : Message :=
  ⟨TERMINATE_TAG, none⟩

/-- The enumerator of the task space, lines 82-83 and 102-103. -/
def enumerate (size i : Nat) : Nat × Nat :=
  (i / size, i % size)

/-! ## The worker -/

/-- The loop of `slave_process`, lines 136-150, run on the sequence of messages the worker
receives from rank 0; the value is the list of results it sends back, in order.
`buf` is the current content of the local variable `task`: a receive overwrites it with the
body of the message, and a message without body leaves it as it is.  The loop leaves at the
first message tagged `TERMINATE_TAG`; every other message is answered with
`heavy(task.x, task.y)`.  The argument `rank` of the source is not used by it. -/
def slave_process {α : Type} (heavy : Nat → Nat → α) (buf : Task) : List Message → List α
  | [] => []
  | m :: rest =>
    if m.tag = TERMINATE_TAG then []
    else
      let task := m.body.getD buf
      heavy task.x task.y :: slave_process heavy task rest

/-! ## The master -/

/-- The messages the trace shows were sent to worker `w`, in order. -/
def inboxOf {α : Type} (w : Nat) (trace : List (Event α)) : List Message :=
  trace.filterMap fun e =>
    match e with
    | .send d m => if d = w then some m else none
    | .recv _ _ => none

/-- The number of results the master has received from worker `w`. -/
def recvCount {α : Type} (w : Nat) (trace : List (Event α)) : Nat :=
  trace.countP fun e =>
    match e with
    | .send _ _ => false
    | .recv s _ => decide (s = w)

/-- The next result worker `w` delivers to the master, if it has one: the results of `w`
are those of `slave_process` on its inbox, and they arrive in the order they were sent.
The initial content of the worker's buffer is never read in a run of the master, since
every task message has a body. -/
def pendingResult {α : Type} (heavy : Nat → Nat → α) (trace : List (Event α)) (w : Nat) :
    Option α :=
  (slave_process heavy ⟨0, 0⟩ (inboxOf w trace)).get? (recvCount w trace)

/-- The workers, of ranks `1..num_slaves`, from which a result can arrive. -/
def readyWorkers {α : Type} (heavy : Nat → Nat → α) (num_slaves : Nat)
    (trace : List (Event α)) : List Nat :=
  (List.range' 1 num_slaves).filter fun w => (pendingResult heavy trace w).isSome

/-- The receive of line 91, from any source: choice `c` selects one of the ready workers;
the value is the sender's rank (`status.MPI_SOURCE`) and the result.  With no ready worker
the receive never returns. -/
def MPI_Recv_any {α : Type} (heavy : Nat → Nat → α) (num_slaves : Nat)
    (trace : List (Event α)) (c : Nat) : Option (Nat × α) :=
  let ready := readyWorkers heavy num_slaves trace
  (ready.get? (c % ready.length)).bind fun w =>
    (pendingResult heavy trace w).map fun v => (w, v)

/-- The state of `master_process` at line 78, before any communication. -/
def initMaster {α : Type} [AddCommMonoid α] : Master α :=
  ⟨0, 0, 0, []⟩

/-- One iteration of the initial loop, lines 82-85. -/
def sendInitial {α : Type} (size : Nat) (st : Master α) (i : Nat) : Master α :=
  { st with
    trace := st.trace ++ [Event.send (i + 1) (taskMsg size i)]
    tasks_sent := st.tasks_sent + 1 }

/-- The value of `initial_tasks`, line 78. -/
def initial_tasks (size num_slaves : Nat) : Nat :=
  if num_slaves < size * size then num_slaves else size * size

/-- The state after the initial loop, lines 78-86. -/
def priming {α : Type} [AddCommMonoid α] (size num_slaves : Nat) : Master α :=
  (List.range (initial_tasks size num_slaves)).foldl (sendInitial size) initMaster

/-- The body of the receive loop after the receive, lines 94-109: add the result, count it,
and answer the sender with the next task if one is left and with a termination message
otherwise. -/
def handleResult {α : Type} [AddCommMonoid α] (size : Nat) (st : Master α) (slave_id : Nat)
    (result : α) : Master α :=
  let st1 : Master α :=
    { st with
      final_answer := st.final_answer + result
      tasks_received := st.tasks_received + 1
      trace := st.trace ++ [Event.recv slave_id result] }
  if st1.tasks_sent < size * size then
    { st1 with
      trace := st1.trace ++ [Event.send slave_id (taskMsg size st1.tasks_sent)]
      tasks_sent := st1.tasks_sent + 1 }
  else
    { st1 with trace := st1.trace ++ [Event.send slave_id terminateMsg] }

/-- The body of the receive loop, lines 91-109, with scheduler choice `c`. -/
def loopBody {α : Type} [AddCommMonoid α] (heavy : Nat → Nat → α) (size num_slaves : Nat)
    (st : Master α) (c : Nat) : Option (Master α) :=
  (MPI_Recv_any heavy num_slaves st.trace c).map fun r => handleResult size st r.1 r.2

/-- The receive loop, lines 89-110, with at most `fuel` iterations; `none` when a receive
blocks forever or the fuel runs out with the loop condition still true. -/
def recvLoop {α : Type} [AddCommMonoid α] (heavy : Nat → Nat → α) (size num_slaves : Nat)
    (sched : Nat → Nat) : Nat → Master α → Option (Master α)
  | 0, st => if st.tasks_received < size * size then none else some st
  | fuel + 1, st =>
    if st.tasks_received < size * size then
      (loopBody heavy size num_slaves st (sched st.tasks_received)).bind
        (recvLoop heavy size num_slaves sched fuel)
    else some st

/-- The final loop, lines 113-115: a termination message to every rank `1..num_slaves`. -/
def finalSweep {α : Type} (num_slaves : Nat) (st : Master α) : Master α :=
  (List.range' 1 num_slaves).foldl
    (fun s i => { s with trace := s.trace ++ [Event.send i terminateMsg] }) st

/-- The function `master_process`, lines 62-125, with `size` for the local variable of that
name; the printed answer is the field `final_answer` of the value.  Each iteration of the
receive loop increments `tasks_received`, so `size * size` iterations are all it can make. -/
def master_process {α : Type} [AddCommMonoid α] (heavy : Nat → Nat → α) (size num_slaves : Nat)
    (sched : Nat → Nat) : Option (Master α) :=
  (recvLoop heavy size num_slaves sched (size * size) (priming size num_slaves)).map
    (finalSweep num_slaves)

/-- The function `run_sequential`, lines 157-176: the two nested loops over the grid. -/
def run_sequential {α : Type} [AddCommMonoid α] (heavy : Nat → Nat → α) (size : Nat) : α :=
  (List.range size).foldl
    (fun answer x => (List.range size).foldl (fun a y => a + heavy x y) answer) 0

/-! ## States at the head of the receive loop, and observations on the trace -/

/-- The states of the master at the head of the receive loop (line 89): the state after
the initial loop, and the state after each iteration of the receive loop that is entered
with the loop condition true and whose receive returns. -/
inductive Reachable {α : Type} [AddCommMonoid α] (heavy : Nat → Nat → α)
    (size num_slaves : Nat) : Master α → Prop where
  | prime : Reachable heavy size num_slaves (priming size num_slaves)
  | step (st st' : Master α) (c : Nat) :
      Reachable heavy size num_slaves st →
      st.tasks_received < size * size →
      loopBody heavy size num_slaves st c = some st' →
      Reachable heavy size num_slaves st'

/-- The cost of the task of linear index `i`. -/
def taskValue {α : Type} (heavy : Nat → Nat → α) (size i : Nat) : α :=
  heavy (i / size) (i % size)

/-- The number of task messages the trace shows were sent to worker `w`. -/
def taskCount {α : Type} (w : Nat) (trace : List (Event α)) : Nat :=
  (inboxOf w trace).countP fun m => decide (m.tag = TASK_TAG)

/-- The number of termination messages the trace shows were sent to worker `w`. -/
def terminateCount {α : Type} (w : Nat) (trace : List (Event α)) : Nat :=
  (inboxOf w trace).countP fun m => decide (m.tag = TERMINATE_TAG)

/-- The task messages of the trace, in the order they were sent. -/
def taskSends {α : Type} (trace : List (Event α)) : List Message :=
  trace.filterMap fun e =>
    match e with
    | .send _ m => if m.tag = TASK_TAG then some m else none
    | .recv _ _ => none

/-- The number of results received before the first termination message to worker `w` is
sent; `none` when the trace has no termination message to `w`. -/
def resultsBeforeTerminate {α : Type} (w : Nat) : List (Event α) → Option Nat
  | [] => none
  | Event.send d m :: rest =>
    if d = w ∧ m.tag = TERMINATE_TAG then some 0 else resultsBeforeTerminate w rest
  | Event.recv _ _ :: rest => (resultsBeforeTerminate w rest).map (· + 1)

/-- The trace of the first `k` iterations of the initial loop. -/
def primeTrace {α : Type} (size k : Nat) : List (Event α) :=
  (List.range k).map fun i => Event.send (i + 1) (taskMsg size i)

/-- The trace of the final loop. -/
def sweepTrace {α : Type} (num_slaves : Nat) : List (Event α) :=
  (List.range' 1 num_slaves).map fun i => Event.send i terminateMsg

/-! ## The invariant of the receive loop -/

/-- What the trace shows of worker `w`, given the list `act` of the active workers, each
paired with the linear index of the task it holds: `w` has answered `idxs.length` tasks, and
it is either active (its inbox ends in the task it holds), or terminated (its inbox ends in a
termination message), or it was never addressed (its rank is outside `1..initial`). -/
def WorkerState {α : Type} (size initial : Nat) (trace : List (Event α))
    (act : List (Nat × Nat)) (w : Nat) : Prop :=
  ∃ idxs : List Nat, idxs.length = recvCount w trace ∧
    ((∃ i, (w, i) ∈ act ∧ inboxOf w trace = (idxs ++ [i]).map (taskMsg size)) ∨
     (w ∉ act.map Prod.fst ∧ (1 ≤ w ∧ w ≤ initial) ∧
        inboxOf w trace = idxs.map (taskMsg size) ++ [terminateMsg]) ∨
     (w ∉ act.map Prod.fst ∧ ¬ (1 ≤ w ∧ w ≤ initial) ∧ inboxOf w trace = [] ∧ idxs = []))

/-- The invariant of the receive loop that links the master's counters and accumulator to
the workers: `act` lists the workers holding a task, with the index of that task. -/
structure SchedInv {α : Type} [AddCommMonoid α] (heavy : Nat → Nat → α) (size num_slaves : Nat)
    (st : Master α) (act : List (Nat × Nat)) : Prop where
  nodup : (act.map Prod.fst).Nodup
  inRange : ∀ p ∈ act, 1 ≤ p.1 ∧ p.1 ≤ initial_tasks size num_slaves
  count : act.length + st.tasks_received = st.tasks_sent
  sum : st.final_answer + (act.map fun p => taskValue heavy size p.2).sum =
    ((List.range st.tasks_sent).map (taskValue heavy size)).sum
  worker : ∀ w, WorkerState size (initial_tasks size num_slaves) st.trace act w

/-- The number of results the trace shows the master has received, from any worker. -/
def resultCount {α : Type} (trace : List (Event α)) : Nat :=
  trace.countP fun e =>
    match e with
    | .send _ _ => false
    | .recv _ _ => true

/-- The causal order of the trace: whenever the master sends a message to a worker, every
task sent to that worker before has been answered; and at every point of the trace a worker
has answered no more tasks than it was sent, and holds at most one unanswered task. -/
def Causal {α : Type} (trace : List (Event α)) : Prop :=
  (∀ p q w m, trace = p ++ Event.send w m :: q → taskCount w p = recvCount w p) ∧
  (∀ p q w, trace = p ++ q →
    recvCount w p ≤ taskCount w p ∧ taskCount w p ≤ recvCount w p + 1)

/-! ## The entry point -/

/-- What a process executes in `main` between `MPI_Init` and `MPI_Finalize`: the call of
`run_sequential` of line 193 with the answer it computes, the call of `master_process` of
line 204 with its run, the call of `slave_process` of line 207, or nothing (a rank other
than 0 when fewer than two processes are reported). -/
inductive Routine (α : Type) where
  | sequential (answer : α)
  | master (run : Option (Master α))
  | slave (rank : Nat)
  | nothing

/-- The function `main` of `dynamic.c`, lines 181-212, for the process of rank `rank` among
`size` processes: the exit status it returns and the routine it executes. -/
def main {α : Type} [AddCommMonoid α] (heavy : Nat → Nat → α) (sched : Nat → Nat)
    (rank size : Nat) : Nat × Routine α :=
  if size < 2 then
    (1, if rank = 0 then Routine.sequential (run_sequential heavy SIZE) else Routine.nothing)
  else
    let num_slaves := size - 1
    (0, if rank = 0 then Routine.master (master_process heavy SIZE num_slaves sched)
      else Routine.slave rank)

/-! ## The worker's contract, in the spec's words -/

/-- The results the worker contract of the spec prescribes for a sequence of messages: one
result `cost(x, y)` for each TASK `{x, y}` received before the first TERMINATE, in the same
order, and nothing else. -/
def contractResults {α : Type} (heavy : Nat → Nat → α) (msgs : List Message) : List α :=
  ((msgs.takeWhile fun m => decide (m.tag ≠ TERMINATE_TAG)).filterMap fun m =>
    if m.tag = TASK_TAG then m.body else none).map fun t => heavy t.x t.y

/-- The number of termination messages the trace shows the master has sent, to any worker. -/
def terminateSends {α : Type} (trace : List (Event α)) : Nat :=
  trace.countP fun e =>
    match e with
    | .send _ m => decide (m.tag = TERMINATE_TAG)
    | .recv _ _ => false

/-! ## The static partitioner of `HW1/static.c` -/

/-- One message of line 59 of `static.c`: the array `data = {x_start, x_end}` sent to the
process of rank `worker`. -/
structure RowRange where
  worker : Nat
  x_start : Int
  x_end : Int
  deriving DecidableEq, Repr

/-- The C quotient `a / b` of a non-negative `a` by a non-negative `b`; a zero divisor is an
error, `none`. -/
def int_div (a b : Nat) : Option Nat :=
  if b = 0 then none else some (a / b)

/-- The C remainder `a % b` of a non-negative `a` by a non-negative `b`; a zero divisor is an
error, `none`. -/
def int_mod (a b : Nat) : Option Nat :=
  if b = 0 then none else some (a % b)

/-- The send loop of `static.c`, lines 54-62, over the ranks still to be served, from the
current value of `x_start`; the value is the list of the messages sent, in order. -/
def sendRanges (rows_per_worker extra_rows : Nat) : List Nat → Int → List RowRange
  | [], _ => []
  | worker :: rest, x_start =>
    let rows : Nat := rows_per_worker + (if worker ≤ extra_rows then 1 else 0)
    let x_end : Int := x_start + rows - 1
    ⟨worker, x_start, x_end⟩ :: sendRanges rows_per_worker extra_rows rest (x_end + 1)

/-- The partition rank 0 computes and sends in `static.c`, lines 50-62, with `size` for the
macro `SIZE`: the two divisions by `num_workers`, then one message to each rank
`1..num_workers`. -/
def static_partition (size num_workers : Nat) : Option (List RowRange) :=
  (int_div size num_workers).bind fun rows_per_worker =>
    (int_mod size num_workers).bind fun extra_rows =>
      some (sendRanges rows_per_worker extra_rows (List.range' 1 num_workers) 0)

/-- The function `main` of `static.c`, lines 35-88, for the process of rank `rank` among
`size` processes, with `size ≥ 1` as MPI reports it: `num_workers = size - 1`, with no test
on it; rank 0 computes and sends the partition, and the value is the exit status 0 with the
messages the process sent to the workers, or `none` when a division by zero stops it.  The
receives of the partial sums, lines 66-70, and the worker's reply are not modelled. -/
def static_main (rank size : Nat) : Option (Nat × List RowRange) :=
  let num_workers := size - 1
  if rank = 0 then
    (static_partition SIZE num_workers).map fun sends => (0, sends)
  else
    some (0, [])

/-- The values of `x` the outer loop of `calculate_partial_sum` visits, lines 27-31 of
`static.c`: `for (x = x_start; x <= x_end; x++)`. -/
def rowsOf (x_start x_end : Int) : List Int :=
  (List.range (x_end - x_start + 1).toNat).map fun k : Nat => x_start + (k : Int)

/-- The function `calculate_partial_sum` of `static.c`, lines 25-33. -/
def calculate_partial_sum {α : Type} [AddCommMonoid α] (heavy : Int → Int → α)
    (x_start x_end : Int) (size : Nat) : α :=
  (rowsOf x_start x_end).foldl
    (fun acc x => (List.range size).foldl (fun s y => s + heavy x (y : Int)) acc) 0

/-- The number of rows a worker computes for the range it is sent. -/
def rowCount (r : RowRange) : Nat :=
  (rowsOf r.x_start r.x_end).length

/-- The rows the send loop hands out to the ranks of a list, in all. -/
def rowsTotal (rows_per_worker extra_rows : Nat) (workers : List Nat) : Nat :=
  (workers.map fun w => rows_per_worker + (if w ≤ extra_rows then 1 else 0)).sum

/-! ## Example data -/

/-- The cost function of the examples. -/
def heavyEx (x y : Nat) : Int := 10 * (x : Int) + y + 1

/-! ## Reading the trace -/

section TraceLemmas

variable {α : Type}

@[simp] theorem inboxOf_nil (w : Nat) : inboxOf w ([] : List (Event α)) = [] := rfl

@[simp] theorem inboxOf_append (w : Nat) (s t : List (Event α)) :
    inboxOf w (s ++ t) = inboxOf w s ++ inboxOf w t := by
  simp [inboxOf, List.filterMap_append]

@[simp] theorem inboxOf_send (w d : Nat) (m : Message) :
    inboxOf w [(Event.send d m : Event α)] = if d = w then [m] else [] := by
  by_cases h : d = w <;> simp [inboxOf, List.filterMap_cons, h]

@[simp] theorem inboxOf_recv (w s : Nat) (v : α) :
    inboxOf w [(Event.recv s v : Event α)] = [] := by
  simp [inboxOf, List.filterMap_cons]

@[simp] theorem inboxOf_cons_send (w d : Nat) (m : Message) (t : List (Event α)) :
    inboxOf w (Event.send d m :: t) = if d = w then m :: inboxOf w t else inboxOf w t := by
  by_cases h : d = w <;> simp [inboxOf, List.filterMap_cons, h]

@[simp] theorem inboxOf_cons_recv (w s : Nat) (v : α) (t : List (Event α)) :
    inboxOf w (Event.recv s v :: t) = inboxOf w t := by
  simp [inboxOf, List.filterMap_cons]

@[simp] theorem recvCount_cons_send (w d : Nat) (m : Message) (t : List (Event α)) :
    recvCount w (Event.send d m :: t) = recvCount w t := by
  simp [recvCount, List.countP_cons]

@[simp] theorem recvCount_cons_recv (w s : Nat) (v : α) (t : List (Event α)) :
    recvCount w (Event.recv s v :: t) = recvCount w t + if s = w then 1 else 0 := by
  by_cases h : s = w <;> simp [recvCount, List.countP_cons, h]

@[simp] theorem recvCount_nil (w : Nat) : recvCount w ([] : List (Event α)) = 0 := rfl

@[simp] theorem recvCount_append (w : Nat) (s t : List (Event α)) :
    recvCount w (s ++ t) = recvCount w s + recvCount w t := by
  simp [recvCount, List.countP_append]

@[simp] theorem recvCount_send (w d : Nat) (m : Message) :
    recvCount w [(Event.send d m : Event α)] = 0 := by
  simp [recvCount, List.countP_cons]

@[simp] theorem recvCount_recv (w s : Nat) (v : α) :
    recvCount w [(Event.recv s v : Event α)] = if s = w then 1 else 0 := by
  by_cases h : s = w <;> simp [recvCount, List.countP_cons, h]

@[simp] theorem taskCount_nil (w : Nat) : taskCount w ([] : List (Event α)) = 0 := rfl

@[simp] theorem taskCount_append (w : Nat) (s t : List (Event α)) :
    taskCount w (s ++ t) = taskCount w s + taskCount w t := by
  simp [taskCount, List.countP_append]

@[simp] theorem terminateCount_append (w : Nat) (s t : List (Event α)) :
    terminateCount w (s ++ t) = terminateCount w s + terminateCount w t := by
  simp [terminateCount, List.countP_append]

@[simp] theorem taskSends_append (s t : List (Event α)) :
    taskSends (s ++ t) = taskSends s ++ taskSends t := by
  simp [taskSends, List.filterMap_append]

theorem taskMsg_tag (size i : Nat) : (taskMsg size i).tag = TASK_TAG := rfl

theorem terminateMsg_tag : terminateMsg.tag = TERMINATE_TAG := rfl

theorem taskMsg_ne_terminate (size i : Nat) : (taskMsg size i).tag ≠ TERMINATE_TAG := by
  simp [taskMsg, TASK_TAG, TERMINATE_TAG]

end TraceLemmas

/-! ## The worker on the master's messages, and the closed form of the two send loops -/

section Loops

variable {α : Type}

theorem slave_process_tasks (heavy : Nat → Nat → α) (size : Nat) (idxs : List Nat) (buf : Task) :
    slave_process heavy buf (idxs.map (taskMsg size)) = idxs.map (taskValue heavy size) := by
  induction idxs generalizing buf with
  | nil => rfl
  | cons i rest ih =>
    simp only [List.map_cons, slave_process, taskMsg_ne_terminate, if_false]
    simp only [taskMsg, Option.getD_some, taskValue, List.cons.injEq, true_and]
    exact ih _

theorem slave_process_tasks_terminate (heavy : Nat → Nat → α) (size : Nat) (idxs : List Nat)
    (buf : Task) (rest : List Message) :
    slave_process heavy buf (idxs.map (taskMsg size) ++ terminateMsg :: rest)
      = idxs.map (taskValue heavy size) := by
  induction idxs generalizing buf with
  | nil => simp [slave_process, terminateMsg]
  | cons i more ih =>
    simp only [List.map_cons, List.cons_append, slave_process, taskMsg_ne_terminate, if_false]
    simp only [taskMsg, Option.getD_some, taskValue, List.cons.injEq, true_and]
    exact ih _

theorem foldl_sendInitial (size k : Nat) (st : Master α) :
    (List.range k).foldl (sendInitial size) st =
      { st with
        trace := st.trace ++ primeTrace size k
        tasks_sent := st.tasks_sent + k } := by
  induction k with
  | zero => simp [primeTrace]
  | succ k ih =>
    rw [List.range_succ, List.foldl_append, ih]
    simp [sendInitial, primeTrace, List.range_succ, Nat.add_assoc]

theorem foldl_sweep (l : List Nat) (st : Master α) :
    l.foldl (fun s i => { s with trace := s.trace ++ [Event.send i terminateMsg] }) st =
      { st with trace := st.trace ++ l.map fun i => Event.send i terminateMsg } := by
  induction l generalizing st with
  | nil => simp
  | cons i rest ih => rw [List.foldl_cons, ih]; simp


theorem priming_eq [AddCommMonoid α] (size num_slaves : Nat) :
    (priming size num_slaves : Master α) =
      ⟨0, initial_tasks size num_slaves, 0, primeTrace size (initial_tasks size num_slaves)⟩ := by
  simp [priming, foldl_sendInitial, initMaster]

theorem finalSweep_eq (num_slaves : Nat) (st : Master α) :
    finalSweep num_slaves st = { st with trace := st.trace ++ sweepTrace num_slaves } := by
  simp [finalSweep, foldl_sweep, sweepTrace]

theorem primeTrace_succ (size k : Nat) :
    (primeTrace size (k + 1) : List (Event α)) =
      primeTrace size k ++ [Event.send (k + 1) (taskMsg size k)] := by
  simp [primeTrace, List.range_succ]

theorem inboxOf_primeTrace (size k w : Nat) :
    inboxOf w (primeTrace size k : List (Event α)) =
      if 1 ≤ w ∧ w ≤ k then [taskMsg size (w - 1)] else [] := by
  induction k with
  | zero =>
    have : ¬ (1 ≤ w ∧ w ≤ 0) := by omega
    rw [if_neg this]
    rfl
  | succ k ih =>
    rw [primeTrace_succ, inboxOf_append, ih, inboxOf_send]
    by_cases h1 : k + 1 = w
    · subst h1
      have : ¬ (1 ≤ k + 1 ∧ k + 1 ≤ k) := by omega
      simp [this]
    · by_cases h2 : 1 ≤ w ∧ w ≤ k
      · have : 1 ≤ w ∧ w ≤ k + 1 := by omega
        simp [h1, h2, this]
      · have : ¬ (1 ≤ w ∧ w ≤ k + 1) := by omega
        simp [h1, h2, this]

theorem recvCount_primeTrace (size k w : Nat) :
    recvCount w (primeTrace size k : List (Event α)) = 0 := by
  induction k with
  | zero => simp [primeTrace]
  | succ k ih => rw [primeTrace_succ, recvCount_append, ih, recvCount_send]

theorem taskSends_primeTrace (size k : Nat) :
    taskSends (primeTrace size k : List (Event α)) = (List.range k).map (taskMsg size) := by
  induction k with
  | zero => simp [primeTrace, taskSends]
  | succ k ih =>
    rw [primeTrace_succ, taskSends_append, ih, List.range_succ, List.map_append]
    simp [taskSends, taskMsg_tag]

theorem sweepTrace_succ (n : Nat) :
    (sweepTrace (n + 1) : List (Event α)) = sweepTrace n ++ [Event.send (n + 1) terminateMsg] := by
  simp [sweepTrace, List.range'_concat, Nat.add_comm]

theorem inboxOf_sweepTrace (n w : Nat) :
    inboxOf w (sweepTrace n : List (Event α)) =
      if 1 ≤ w ∧ w ≤ n then [terminateMsg] else [] := by
  induction n with
  | zero =>
    have : ¬ (1 ≤ w ∧ w ≤ 0) := by omega
    rw [if_neg this]
    rfl
  | succ k ih =>
    rw [sweepTrace_succ, inboxOf_append, ih, inboxOf_send]
    by_cases h1 : k + 1 = w
    · subst h1
      have : ¬ (1 ≤ k + 1 ∧ k + 1 ≤ k) := by omega
      simp [this]
    · by_cases h2 : 1 ≤ w ∧ w ≤ k
      · have : 1 ≤ w ∧ w ≤ k + 1 := by omega
        simp [h1, h2, this]
      · have : ¬ (1 ≤ w ∧ w ≤ k + 1) := by omega
        simp [h1, h2, this]

theorem recvCount_sweepTrace (n w : Nat) :
    recvCount w (sweepTrace n : List (Event α)) = 0 := by
  induction n with
  | zero => simp [sweepTrace]
  | succ k ih => rw [sweepTrace_succ, recvCount_append, ih, recvCount_send]

theorem taskSends_sweepTrace (n : Nat) : taskSends (sweepTrace n : List (Event α)) = [] := by
  induction n with
  | zero => simp [sweepTrace, taskSends]
  | succ k ih =>
    rw [sweepTrace_succ, taskSends_append, ih]
    simp [taskSends, terminateMsg, TASK_TAG, TERMINATE_TAG]

end Loops

/-! ## The task space enumerator -/

theorem enumerate_fst_lt {size i : Nat} (h : i < size * size) : (enumerate size i).1 < size := by
  simp only [enumerate]
  exact Nat.div_lt_of_lt_mul h

theorem enumerate_snd_lt {size : Nat} (hs : 1 ≤ size) (i : Nat) : (enumerate size i).2 < size := by
  simp only [enumerate]
  exact Nat.mod_lt _ hs

theorem enumerate_index (size i : Nat) :
    (enumerate size i).1 * size + (enumerate size i).2 = i := by
  simp only [enumerate]
  rw [Nat.mul_comm]
  exact Nat.div_add_mod i size

theorem enumerate_cell {size x y : Nat} (hy : y < size) :
    enumerate size (x * size + y) = (x, y) := by
  have hs : 0 < size := by omega
  simp only [enumerate, Prod.mk.injEq]
  constructor
  · rw [Nat.add_comm, Nat.add_mul_div_right _ _ hs, Nat.div_eq_of_lt hy, Nat.zero_add]
  · rw [Nat.add_comm, Nat.add_mul_mod_self_right, Nat.mod_eq_of_lt hy]

theorem cell_index_lt {size x y : Nat} (hx : x < size) (hy : y < size) :
    x * size + y < size * size := by
  have h1 : (x + 1) * size ≤ size * size := Nat.mul_le_mul_right size hx
  have h2 : (x + 1) * size = x * size + size := by ring
  omega

/-! ## One iteration of the receive loop, the receive, and the counters -/

section Steps
variable {α : Type} [AddCommMonoid α]
set_option linter.unusedSectionVars false

theorem handleResult_received (size : Nat) (st : Master α) (w : Nat) (v : α) :
    (handleResult size st w v).tasks_received = st.tasks_received + 1 := by
  by_cases h : st.tasks_sent < size * size <;> simp [handleResult, h]

theorem handleResult_sent (size : Nat) (st : Master α) (w : Nat) (v : α) :
    (handleResult size st w v).tasks_sent =
      if st.tasks_sent < size * size then st.tasks_sent + 1 else st.tasks_sent := by
  by_cases h : st.tasks_sent < size * size <;> simp [handleResult, h]

theorem handleResult_answer (size : Nat) (st : Master α) (w : Nat) (v : α) :
    (handleResult size st w v).final_answer = st.final_answer + v := by
  by_cases h : st.tasks_sent < size * size <;> simp [handleResult, h]

theorem handleResult_trace (size : Nat) (st : Master α) (w : Nat) (v : α) :
    (handleResult size st w v).trace =
      st.trace ++ [Event.recv w v] ++
        [Event.send w (if st.tasks_sent < size * size then taskMsg size st.tasks_sent
          else terminateMsg)] := by
  by_cases h : st.tasks_sent < size * size <;> simp [handleResult, h]

theorem loopBody_eq_some {heavy : Nat → Nat → α} {size num_slaves : Nat} {st st' : Master α}
    {c : Nat} (h : loopBody heavy size num_slaves st c = some st') :
    ∃ w v, MPI_Recv_any heavy num_slaves st.trace c = some (w, v) ∧
      st' = handleResult size st w v := by
  unfold loopBody at h
  cases hr : MPI_Recv_any heavy num_slaves st.trace c with
  | none => rw [hr] at h; simp at h
  | some r =>
    rw [hr] at h
    simp only [Option.map_some', Option.some.injEq] at h
    exact ⟨r.1, r.2, rfl, h.symm⟩

theorem mem_readyWorkers {heavy : Nat → Nat → α} {num_slaves : Nat} {trace : List (Event α)}
    {w : Nat} :
    w ∈ readyWorkers heavy num_slaves trace ↔
      (1 ≤ w ∧ w ≤ num_slaves) ∧ (pendingResult heavy trace w).isSome := by
  simp only [readyWorkers, List.mem_filter, List.mem_range'_1]
  constructor
  · rintro ⟨⟨h1, h2⟩, h3⟩; exact ⟨⟨h1, by omega⟩, h3⟩
  · rintro ⟨⟨h1, h2⟩, h3⟩; exact ⟨⟨h1, by omega⟩, h3⟩

theorem MPI_Recv_any_some {heavy : Nat → Nat → α} {num_slaves : Nat} {trace : List (Event α)}
    {c w : Nat} {v : α} (h : MPI_Recv_any heavy num_slaves trace c = some (w, v)) :
    (1 ≤ w ∧ w ≤ num_slaves) ∧ pendingResult heavy trace w = some v := by
  simp only [MPI_Recv_any, Option.bind_eq_some, Option.map_eq_some', Prod.mk.injEq] at h
  obtain ⟨u, hu, x, hx, rfl, rfl⟩ := h
  have hm : u ∈ readyWorkers heavy num_slaves trace := List.get?_mem hu
  exact ⟨(mem_readyWorkers.mp hm).1, hx⟩

theorem MPI_Recv_any_complete {heavy : Nat → Nat → α} {num_slaves : Nat}
    {trace : List (Event α)} {w : Nat} {v : α} (h1 : 1 ≤ w) (h2 : w ≤ num_slaves)
    (hv : pendingResult heavy trace w = some v) :
    ∃ c, MPI_Recv_any heavy num_slaves trace c = some (w, v) := by
  have hm : w ∈ readyWorkers heavy num_slaves trace :=
    mem_readyWorkers.mpr ⟨⟨h1, h2⟩, by simp [hv]⟩
  obtain ⟨n, hn, hget⟩ := List.getElem_of_mem hm
  refine ⟨n, ?_⟩
  simp only [MPI_Recv_any, Nat.mod_eq_of_lt hn, List.get?_eq_getElem?,
    List.getElem?_eq_getElem hn, hget, Option.some_bind, hv, Option.map_some']

theorem MPI_Recv_any_progress {heavy : Nat → Nat → α} {num_slaves : Nat}
    {trace : List (Event α)} {w : Nat} (h1 : 1 ≤ w) (h2 : w ≤ num_slaves)
    (hv : (pendingResult heavy trace w).isSome) (c : Nat) :
    ∃ r, MPI_Recv_any heavy num_slaves trace c = some r := by
  have hm : w ∈ readyWorkers heavy num_slaves trace := mem_readyWorkers.mpr ⟨⟨h1, h2⟩, hv⟩
  have hpos : 0 < (readyWorkers heavy num_slaves trace).length := List.length_pos_of_mem hm
  have hlt := Nat.mod_lt c hpos
  have hu : (readyWorkers heavy num_slaves trace)[c % (readyWorkers heavy num_slaves trace).length]
      ∈ readyWorkers heavy num_slaves trace := List.getElem_mem _
  obtain ⟨x, hx⟩ := Option.isSome_iff_exists.mp (mem_readyWorkers.mp hu).2
  refine ⟨((readyWorkers heavy num_slaves trace)[c % (readyWorkers heavy num_slaves trace).length], x), ?_⟩
  simp only [MPI_Recv_any, List.get?_eq_getElem?, List.getElem?_eq_getElem hlt,
    Option.some_bind, hx, Option.map_some']

theorem initial_tasks_le_num (size num_slaves : Nat) : initial_tasks size num_slaves ≤ num_slaves := by
  unfold initial_tasks; split <;> omega

theorem initial_tasks_le_total (size num_slaves : Nat) :
    initial_tasks size num_slaves ≤ size * size := by
  unfold initial_tasks; split <;> omega

theorem initial_tasks_pos {size num_slaves : Nat} (hn : 1 ≤ num_slaves) (ht : 0 < size * size) :
    1 ≤ initial_tasks size num_slaves := by
  unfold initial_tasks; split <;> omega

theorem reachable_counters {heavy : Nat → Nat → α} {size num_slaves : Nat} {st : Master α}
    (h : Reachable heavy size num_slaves st) :
    st.tasks_received ≤ st.tasks_sent ∧ st.tasks_sent ≤ size * size ∧
    st.tasks_sent ≤ st.tasks_received + initial_tasks size num_slaves ∧
    (1 ≤ num_slaves → st.tasks_received < size * size → st.tasks_received < st.tasks_sent) := by
  induction h with
  | prime =>
    rw [priming_eq]
    refine ⟨Nat.zero_le _, initial_tasks_le_total _ _, by simp, ?_⟩
    intro hn ht
    exact initial_tasks_pos hn ht
  | step st st' c _ hguard hbody ih =>
    obtain ⟨w, v, _, rfl⟩ := loopBody_eq_some hbody
    obtain ⟨h1, h2, h3, h4⟩ := ih
    rw [handleResult_received, handleResult_sent]
    split <;> refine ⟨by omega, by omega, by omega, fun hn ht => ?_⟩
    · have := h4 hn hguard; omega
    · omega

end Steps

/-! ## The results a worker can deliver -/

section Pending
variable {α : Type}

theorem pendingResult_active (heavy : Nat → Nat → α) {size : Nat} {trace : List (Event α)}
    {w i : Nat} {idxs : List Nat} (hlen : idxs.length = recvCount w trace)
    (hin : inboxOf w trace = (idxs ++ [i]).map (taskMsg size)) :
    pendingResult heavy trace w = some (taskValue heavy size i) := by
  unfold pendingResult
  rw [hin, slave_process_tasks, ← hlen]
  simp

theorem pendingResult_terminated (heavy : Nat → Nat → α) {size : Nat} {trace : List (Event α)}
    {w : Nat} {idxs : List Nat} (hlen : idxs.length = recvCount w trace)
    (hin : inboxOf w trace = idxs.map (taskMsg size) ++ [terminateMsg]) :
    pendingResult heavy trace w = none := by
  unfold pendingResult
  rw [hin, slave_process_tasks_terminate, ← hlen]
  simp

theorem pendingResult_idle (heavy : Nat → Nat → α) {trace : List (Event α)} {w : Nat}
    (hin : inboxOf w trace = []) : pendingResult heavy trace w = none := by
  unfold pendingResult
  rw [hin]
  simp [slave_process]

/-- A worker from which a result arrives is active, and the result is the cost of the task
it holds. -/
theorem pendingResult_some (heavy : Nat → Nat → α) {size initial : Nat}
    {trace : List (Event α)} {act : List (Nat × Nat)} {w : Nat} {v : α}
    (hw : WorkerState size initial trace act w) (hv : pendingResult heavy trace w = some v) :
    ∃ idxs i, idxs.length = recvCount w trace ∧ (w, i) ∈ act ∧
      inboxOf w trace = (idxs ++ [i]).map (taskMsg size) ∧ v = taskValue heavy size i := by
  obtain ⟨idxs, hlen, h | h | h⟩ := hw
  · obtain ⟨i, hmem, hin⟩ := h
    rw [pendingResult_active heavy hlen hin] at hv
    exact ⟨idxs, i, hlen, hmem, hin, (Option.some.inj hv).symm⟩
  · rw [pendingResult_terminated heavy hlen h.2.2] at hv
    cases hv
  · rw [pendingResult_idle heavy h.2.2.1] at hv
    cases hv

end Pending

/-! ## The invariant holds in every state at the head of the loop -/

section Invariant
variable {α : Type} [AddCommMonoid α]
set_option linter.unusedSectionVars false

theorem split_of_mem {act : List (Nat × Nat)} {p : Nat × Nat} (hp : p ∈ act) :
    ∃ rest, act.Perm (p :: rest) := by
  obtain ⟨s, t, rfl⟩ := List.append_of_mem hp
  exact ⟨s ++ t, List.perm_middle⟩

theorem sum_of_perm (f : Nat × Nat → α) {act rest : List (Nat × Nat)} {p : Nat × Nat}
    (hp : act.Perm (p :: rest)) : (act.map f).sum = f p + (rest.map f).sum := by
  have h := (hp.map f).sum_eq
  simpa using h

theorem fst_not_mem_rest {act rest : List (Nat × Nat)} {p : Nat × Nat}
    (hp : act.Perm (p :: rest)) (hnd : (act.map Prod.fst).Nodup) :
    p.1 ∉ rest.map Prod.fst := by
  have h := (hp.map Prod.fst).nodup_iff.mp hnd
  simp only [List.map_cons, List.nodup_cons] at h
  exact h.1

theorem nodup_rest_fst {act rest : List (Nat × Nat)} {p : Nat × Nat}
    (hp : act.Perm (p :: rest)) (hnd : (act.map Prod.fst).Nodup) :
    (rest.map Prod.fst).Nodup := by
  have h := (hp.map Prod.fst).nodup_iff.mp hnd
  simp only [List.map_cons, List.nodup_cons] at h
  exact h.2

theorem fst_mem_of_rest {act rest : List (Nat × Nat)} {p : Nat × Nat} {u : Nat}
    (hp : act.Perm (p :: rest)) (h : u ∈ rest.map Prod.fst) : u ∈ act.map Prod.fst := by
  obtain ⟨q, hq, rfl⟩ := List.mem_map.mp h
  exact List.mem_map.mpr ⟨q, hp.mem_iff.mpr (List.mem_cons_of_mem _ hq), rfl⟩

theorem mem_rest_of_ne {act rest : List (Nat × Nat)} {p q : Nat × Nat}
    (hp : act.Perm (p :: rest)) (hq : q ∈ act) (hne : q ≠ p) : q ∈ rest := by
  rcases List.mem_cons.mp (hp.mem_iff.mp hq) with h | h
  · exact absurd h hne
  · exact h

theorem length_rest_add_one {act rest : List (Nat × Nat)} {p : Nat × Nat}
    (hp : act.Perm (p :: rest)) : rest.length + 1 = act.length := by
  have h := hp.length_eq
  simp only [List.length_cons] at h
  omega

/-- The invariant holds after the initial loop, with workers `1..initial_tasks` active. -/
theorem schedInv_priming (heavy : Nat → Nat → α) (size num_slaves : Nat) :
    SchedInv heavy size num_slaves (priming size num_slaves)
      ((List.range (initial_tasks size num_slaves)).map fun i => (i + 1, i)) := by
  rw [priming_eq]
  refine ⟨?_, ?_, ?_, ?_, ?_⟩
  · rw [List.map_map]
    exact (List.nodup_range _).map (fun a b h => by simpa using h)
  · intro p hp
    obtain ⟨i, hi, rfl⟩ := List.mem_map.mp hp
    have := List.mem_range.mp hi
    exact ⟨by simp, by simp; omega⟩
  · simp
  · simp [List.map_map, Function.comp_def]
  · intro w
    refine ⟨[], by simp [recvCount_primeTrace], ?_⟩
    simp only [inboxOf_primeTrace]
    by_cases hw : 1 ≤ w ∧ w ≤ initial_tasks size num_slaves
    · left
      refine ⟨w - 1, ?_, by simp [hw]⟩
      refine List.mem_map.mpr ⟨w - 1, List.mem_range.mpr (by omega), ?_⟩
      simp; omega
    · right; right
      refine ⟨?_, hw, by simp [hw], trivial⟩
      intro hmem
      simp only [List.map_map, List.mem_map, List.mem_range, Function.comp] at hmem
      obtain ⟨i, hi, rfl⟩ := hmem
      exact hw ⟨by omega, by omega⟩

end Invariant

section InvariantStep
variable {α : Type} [AddCommMonoid α]
set_option linter.unusedSectionVars false

/-- The invariant is kept by one iteration of the receive loop: the sender `w` was active
with task `i`, and it now holds the task of index `tasks_sent`, or is terminated. -/
theorem schedInv_step {heavy : Nat → Nat → α} {size num_slaves : Nat} {st : Master α}
    {act : List (Nat × Nat)} (hinv : SchedInv heavy size num_slaves st act)
    {w : Nat} {v : α}
    (hv : pendingResult heavy st.trace w = some v) :
    ∃ act', SchedInv heavy size num_slaves (handleResult size st w v) act' := by
  obtain ⟨idxs, i, hlen, hmem, hin, rfl⟩ := pendingResult_some heavy (hinv.worker w) hv
  obtain ⟨rest, hperm⟩ := split_of_mem hmem
  have hwr : w ∉ rest.map Prod.fst := fst_not_mem_rest hperm hinv.nodup
  have hndr := nodup_rest_fst hperm hinv.nodup
  have hlenr := length_rest_add_one hperm
  have hsum := sum_of_perm (fun p => taskValue heavy size p.2) hperm
  have hcount := hinv.count
  have hs := hinv.sum
  -- the state of the other workers is untouched
  have hother : ∀ (act' : List (Nat × Nat)) (m : Message), (∀ q ∈ rest, q ∈ act') →
      (∀ u, u ≠ w → u ∈ act'.map Prod.fst → u ∈ rest.map Prod.fst) → ∀ u, u ≠ w →
      WorkerState size (initial_tasks size num_slaves)
        (st.trace ++ [Event.recv w (taskValue heavy size i)] ++ [Event.send w m]) act' u := by
    intro act' m hsub hsup u hu
    have hwu : ¬ w = u := fun h => hu h.symm
    obtain ⟨ix, hl, h | h | h⟩ := hinv.worker u
    · obtain ⟨k, hk, hkin⟩ := h
      refine ⟨ix, by simp [hl, hwu], Or.inl ⟨k, hsub _ (mem_rest_of_ne hperm hk ?_), by simp [hkin, hwu]⟩⟩
      intro h; exact hu (congrArg Prod.fst h)
    · refine ⟨ix, by simp [hl, hwu], Or.inr (Or.inl ⟨?_, h.2.1, by simp [h.2.2, hwu]⟩)⟩
      intro hm; exact h.1 (fst_mem_of_rest hperm (hsup u hu hm))
    · refine ⟨ix, by simp [hl, hwu], Or.inr (Or.inr ⟨?_, h.2.1, by simp [h.2.2.1, hwu], h.2.2.2⟩)⟩
      intro hm; exact h.1 (fst_mem_of_rest hperm (hsup u hu hm))
  by_cases hlt : st.tasks_sent < size * size
  · refine ⟨(w, st.tasks_sent) :: rest, ?_, ?_, ?_, ?_, ?_⟩
    · simp only [List.map_cons, List.nodup_cons]; exact ⟨hwr, hndr⟩
    · intro p hp
      rcases List.mem_cons.mp hp with rfl | hp
      · exact hinv.inRange (w, i) hmem
      · exact hinv.inRange _ (hperm.mem_iff.mpr (List.mem_cons_of_mem _ hp))
    · rw [handleResult_received, handleResult_sent, if_pos hlt]
      simp only [List.length_cons]; omega
    · rw [handleResult_answer, handleResult_sent, if_pos hlt, List.range_succ, List.map_append,
        List.sum_append, ← hs, hsum]
      simp only [List.map_cons, List.sum_cons, List.map_nil, List.sum_nil, add_zero]
      abel
    · intro u
      rw [handleResult_trace, if_pos hlt]
      by_cases hu : u = w
      · subst hu
        refine ⟨idxs ++ [i], by simp [hlen], Or.inl ⟨st.tasks_sent, List.mem_cons_self _ _, ?_⟩⟩
        simp [hin]
      · refine hother _ _ (fun q hq => List.mem_cons_of_mem _ hq) ?_ u hu
        intro x hx hm
        simp only [List.map_cons, List.mem_cons] at hm
        rcases hm with h | h
        · exact absurd h hx
        · exact h
  · refine ⟨rest, hndr, ?_, ?_, ?_, ?_⟩
    · intro p hp
      exact hinv.inRange _ (hperm.mem_iff.mpr (List.mem_cons_of_mem _ hp))
    · rw [handleResult_received, handleResult_sent, if_neg hlt]
      omega
    · rw [handleResult_answer, handleResult_sent, if_neg hlt, ← hs, hsum]
      abel
    · intro u
      rw [handleResult_trace, if_neg hlt]
      by_cases hu : u = w
      · subst hu
        refine ⟨idxs ++ [i], by simp [hlen], Or.inr (Or.inl ⟨hwr, hinv.inRange _ hmem, ?_⟩)⟩
        simp [hin]
      · exact hother _ _ (fun q hq => hq) (fun x _ hm => hm) u hu

/-- Every state at the head of the receive loop satisfies the invariant. -/
theorem reachable_schedInv {heavy : Nat → Nat → α} {size num_slaves : Nat} {st : Master α}
    (h : Reachable heavy size num_slaves st) : ∃ act, SchedInv heavy size num_slaves st act := by
  induction h with
  | prime => exact ⟨_, schedInv_priming heavy size num_slaves⟩
  | step st st' c _ _ hbody ih =>
    obtain ⟨act, hinv⟩ := ih
    obtain ⟨w, v, hrecv, rfl⟩ := loopBody_eq_some hbody
    exact schedInv_step hinv (MPI_Recv_any_some hrecv).2

end InvariantStep

/-! ## Complete runs and the value of the accumulator -/

section Run
variable {α : Type} [AddCommMonoid α]
set_option linter.unusedSectionVars false

/-- In a state at the head of the loop with results still missing, the receive returns
whatever the scheduler's choice: some worker holds a task. -/
theorem loopBody_progress {heavy : Nat → Nat → α} {size num_slaves : Nat} {st : Master α}
    (hr : Reachable heavy size num_slaves st) (hn : 1 ≤ num_slaves)
    (hg : st.tasks_received < size * size) (c : Nat) :
    ∃ st', loopBody heavy size num_slaves st c = some st' := by
  obtain ⟨act, hinv⟩ := reachable_schedInv hr
  have hlt := (reachable_counters hr).2.2.2 hn hg
  have hcount := hinv.count
  cases hact : act with
  | nil => rw [hact] at hcount; simp at hcount; omega
  | cons p rest =>
    have hp : p ∈ act := by rw [hact]; exact List.mem_cons_self _ _
    have hrange := hinv.inRange p hp
    have hpend : (pendingResult heavy st.trace p.1).isSome := by
      obtain ⟨idxs, hlen, h | h | h⟩ := hinv.worker p.1
      · obtain ⟨i, _, hin⟩ := h
        rw [pendingResult_active heavy hlen hin]; rfl
      · exact absurd (List.mem_map.mpr ⟨p, hp, rfl⟩) h.1
      · exact absurd (List.mem_map.mpr ⟨p, hp, rfl⟩) h.1
    obtain ⟨r, hrv⟩ := MPI_Recv_any_progress hrange.1
      (le_trans hrange.2 (initial_tasks_le_num size num_slaves)) hpend c
    exact ⟨handleResult size st r.1 r.2, by simp [loopBody, hrv]⟩

/-- With fuel for the results still missing, the receive loop returns, in a state at the
head of the loop where all results are in. -/
theorem recvLoop_complete {heavy : Nat → Nat → α} {size num_slaves : Nat} (hn : 1 ≤ num_slaves)
    (sched : Nat → Nat) (fuel : Nat) (st : Master α)
    (hr : Reachable heavy size num_slaves st) (hf : size * size ≤ st.tasks_received + fuel) :
    ∃ st', recvLoop heavy size num_slaves sched fuel st = some st' ∧
      Reachable heavy size num_slaves st' ∧ st'.tasks_received = size * size := by
  induction fuel generalizing st with
  | zero =>
    have h := reachable_counters hr
    have hg : ¬ st.tasks_received < size * size := by omega
    exact ⟨st, by simp [recvLoop, hg], hr, by omega⟩
  | succ fuel ih =>
    by_cases hg : st.tasks_received < size * size
    · obtain ⟨st1, h1⟩ := loopBody_progress hr hn hg (sched st.tasks_received)
      have hr1 : Reachable heavy size num_slaves st1 := Reachable.step st st1 _ hr hg h1
      have hrec : st1.tasks_received = st.tasks_received + 1 := by
        obtain ⟨w, v, _, rfl⟩ := loopBody_eq_some h1
        exact handleResult_received _ _ _ _
      obtain ⟨st', h2, h3, h4⟩ := ih st1 hr1 (by omega)
      exact ⟨st', by simp [recvLoop, hg, h1, h2], h3, h4⟩
    · have h := reachable_counters hr
      exact ⟨st, by simp [recvLoop, hg], hr, by omega⟩

/-- The run of `master_process` returns: its value is the final loop applied to a state at
the head of the receive loop in which all results are in. -/
theorem master_process_complete (heavy : Nat → Nat → α) (size : Nat) {num_slaves : Nat}
    (hn : 1 ≤ num_slaves) (sched : Nat → Nat) :
    ∃ st0, Reachable heavy size num_slaves st0 ∧ st0.tasks_received = size * size ∧
      master_process heavy size num_slaves sched = some (finalSweep num_slaves st0) := by
  obtain ⟨st0, h1, h2, h3⟩ := recvLoop_complete hn sched (size * size)
    (priming size num_slaves) (Reachable.prime : Reachable heavy size num_slaves _) (by omega)
  exact ⟨st0, h2, h3, by simp [master_process, h1]⟩

/-- When all results are in, no worker holds a task, all tasks were sent and the
accumulator is the sum of the costs of all tasks. -/
theorem reachable_done {heavy : Nat → Nat → α} {size num_slaves : Nat} {st : Master α}
    (hr : Reachable heavy size num_slaves st) (hd : st.tasks_received = size * size) :
    SchedInv heavy size num_slaves st [] ∧ st.tasks_sent = size * size ∧
      st.final_answer = ((List.range (size * size)).map (taskValue heavy size)).sum := by
  obtain ⟨act, hinv⟩ := reachable_schedInv hr
  have h := reachable_counters hr
  have hcount := hinv.count
  have hsent : st.tasks_sent = size * size := by omega
  have hact : act = [] := List.length_eq_zero.mp (by omega)
  subst hact
  refine ⟨hinv, hsent, ?_⟩
  have hs := hinv.sum
  simpa [hsent] using hs

theorem foldl_add_eq_sum {β : Type} (f : β → α) (l : List β) (a : α) :
    l.foldl (fun acc b => acc + f b) a = a + (l.map f).sum := by
  induction l generalizing a with
  | nil => simp
  | cons b rest ih => simp [ih, add_assoc]

theorem run_sequential_eq_rows (heavy : Nat → Nat → α) (size : Nat) :
    run_sequential heavy size =
      ((List.range size).map fun x => ((List.range size).map (heavy x)).sum).sum := by
  unfold run_sequential
  simp only [foldl_add_eq_sum (heavy _)]
  rw [foldl_add_eq_sum (fun x => ((List.range size).map (heavy x)).sum)]
  simp

theorem taskValue_row (heavy : Nat → Nat → α) {size : Nat} (k : Nat) {y : Nat} (hy : y < size) :
    taskValue heavy size (k * size + y) = heavy k y := by
  have h := enumerate_cell (x := k) hy
  simp only [enumerate, Prod.mk.injEq] at h
  simp only [taskValue, h.1, h.2]

theorem sum_tasks_rows (heavy : Nat → Nat → α) (size k : Nat) :
    ((List.range (k * size)).map (taskValue heavy size)).sum =
      ((List.range k).map fun x => ((List.range size).map (heavy x)).sum).sum := by
  induction k with
  | zero => simp
  | succ k ih =>
    have hk : (k + 1) * size = k * size + size := by ring
    rw [hk, List.range_add, List.map_append, List.sum_append, ih, List.range_succ,
      List.map_append, List.sum_append, List.map_map]
    congr 1
    simp only [List.map_cons, List.map_nil, List.sum_cons, List.sum_nil, add_zero]
    congr 1
    apply List.map_congr_left
    intro y hy
    exact taskValue_row heavy k (List.mem_range.mp hy)

theorem sum_tasks_eq_sequential (heavy : Nat → Nat → α) (size : Nat) :
    ((List.range (size * size)).map (taskValue heavy size)).sum = run_sequential heavy size := by
  rw [run_sequential_eq_rows, sum_tasks_rows]

theorem list_sum_range (f : Nat → α) (n : Nat) :
    ((List.range n).map f).sum = ∑ i in Finset.range n, f i := by
  induction n with
  | zero => simp
  | succ n ih => rw [List.range_succ, List.map_append, List.sum_append, ih, Finset.sum_range_succ]; simp

theorem run_sequential_eq_sum (heavy : Nat → Nat → α) (size : Nat) :
    run_sequential heavy size =
      ∑ x in Finset.range size, ∑ y in Finset.range size, heavy x y := by
  rw [run_sequential_eq_rows, list_sum_range]
  simp only [list_sum_range]

@[simp] theorem finalSweep_answer (num_slaves : Nat) (st : Master α) :
    (finalSweep num_slaves st).final_answer = st.final_answer := by
  rw [finalSweep_eq]

@[simp] theorem finalSweep_sent (num_slaves : Nat) (st : Master α) :
    (finalSweep num_slaves st).tasks_sent = st.tasks_sent := by
  rw [finalSweep_eq]

@[simp] theorem finalSweep_received (num_slaves : Nat) (st : Master α) :
    (finalSweep num_slaves st).tasks_received = st.tasks_received := by
  rw [finalSweep_eq]

@[simp] theorem finalSweep_trace (num_slaves : Nat) (st : Master α) :
    (finalSweep num_slaves st).trace = st.trace ++ sweepTrace num_slaves := by
  rw [finalSweep_eq]

end Run

/-! ## Causal order of the trace -/

section Causality
variable {α : Type}

theorem taskCount_snoc_send (w d : Nat) (m : Message) (t : List (Event α)) :
    taskCount w (t ++ [Event.send d m]) =
      taskCount w t + if d = w ∧ m.tag = TASK_TAG then 1 else 0 := by
  rw [taskCount_append]
  by_cases h1 : d = w <;> by_cases h2 : m.tag = TASK_TAG <;> simp [taskCount, h1, h2]

theorem taskCount_snoc_recv (w s : Nat) (v : α) (t : List (Event α)) :
    taskCount w (t ++ [Event.recv s v]) = taskCount w t := by
  rw [taskCount_append]
  simp [taskCount]

theorem causal_nil : Causal ([] : List (Event α)) := by
  constructor
  · intro p q w m h
    have := congrArg List.length h
    simp at this
    omega
  · intro p q w h
    have hp : p = [] := (List.append_eq_nil.mp h.symm).1
    subst hp
    simp

theorem causal_snoc {t : List (Event α)} (ht : Causal t) (e : Event α)
    (hsend : ∀ w m, e = Event.send w m → taskCount w t = recvCount w t)
    (hrecv : ∀ w v, e = Event.recv w v → recvCount w t < taskCount w t) :
    Causal (t ++ [e]) := by
  have hwhole := fun w => ht.2 t [] w (by simp)
  constructor
  · intro p q w m h
    rcases List.eq_nil_or_concat q with rfl | ⟨q', b, rfl⟩
    · have h' : t ++ [e] = p ++ [Event.send w m] := h
      obtain ⟨h1, h2⟩ := List.append_inj' h' rfl
      subst h1
      exact hsend w m (by simpa using h2)
    · have h' : t ++ [e] = (p ++ Event.send w m :: q') ++ [b] := by simpa using h
      obtain ⟨h1, _⟩ := List.append_inj' h' rfl
      exact ht.1 p q' w m h1
  · intro p q w h
    rcases List.eq_nil_or_concat q with rfl | ⟨q', b, rfl⟩
    · have hp : p = t ++ [e] := by simpa using h.symm
      subst hp
      have hw := hwhole w
      cases e with
      | send d m =>
        rw [taskCount_snoc_send, recvCount_append, recvCount_send]
        by_cases hd : d = w ∧ m.tag = TASK_TAG
        · have := hsend d m rfl
          obtain ⟨rfl, _⟩ := hd
          simp only [*, and_self, if_true]
          omega
        · simp only [hd, if_false]; omega
      | recv s v =>
        rw [taskCount_snoc_recv, recvCount_append, recvCount_recv]
        by_cases hs : s = w
        · have := hrecv s v rfl
          subst hs
          simp only [if_true]; omega
        · simp only [hs, if_false]; omega
    · have h' : t ++ [e] = (p ++ q') ++ [b] := by simpa using h
      obtain ⟨h1, _⟩ := List.append_inj' h' rfl
      exact ht.2 p q' w h1

theorem countP_task_map (size : Nat) (l : List Nat) :
    (l.map (taskMsg size)).countP (fun m => decide (m.tag = TASK_TAG)) = l.length := by
  induction l with
  | nil => rfl
  | cons i rest ih => simp [List.countP_cons, taskMsg_tag, ih]

theorem countP_terminate_map (size : Nat) (l : List Nat) :
    (l.map (taskMsg size)).countP (fun m => decide (m.tag = TERMINATE_TAG)) = 0 := by
  induction l with
  | nil => rfl
  | cons i rest ih => simp [List.countP_cons, taskMsg_ne_terminate, ih]

/-- The tasks sent to a worker exceed its results by one when it is active, and equal them
otherwise. -/
theorem taskCount_of_state {size initial : Nat} {trace : List (Event α)}
    {act : List (Nat × Nat)} {w : Nat} (h : WorkerState size initial trace act w) :
    taskCount w trace = recvCount w trace + if w ∈ act.map Prod.fst then 1 else 0 := by
  obtain ⟨idxs, hlen, h | h | h⟩ := h
  · obtain ⟨i, hmem, hin⟩ := h
    have hw : w ∈ act.map Prod.fst := List.mem_map.mpr ⟨(w, i), hmem, rfl⟩
    rw [if_pos hw, taskCount, hin, countP_task_map, ← hlen]
    simp
  · rw [if_neg h.1, taskCount, h.2.2, List.countP_append, countP_task_map, ← hlen]
    simp [terminateMsg, TASK_TAG, TERMINATE_TAG]
  · rw [if_neg h.1, taskCount, h.2.2.1, ← hlen, h.2.2.2]
    simp

theorem causal_primeTrace (size k : Nat) : Causal (primeTrace size k : List (Event α)) := by
  induction k with
  | zero => exact causal_nil
  | succ k ih =>
    rw [primeTrace_succ]
    refine causal_snoc ih _ ?_ ?_
    · intro w m h
      injection h with h1 h2
      subst h1
      have hk : ¬ (1 ≤ k + 1 ∧ k + 1 ≤ k) := by omega
      simp [taskCount, inboxOf_primeTrace, recvCount_primeTrace, hk]
    · intro w v h
      cases h

end Causality

section CausalRun
variable {α : Type} [AddCommMonoid α]

/-- The trace of every state at the head of the receive loop is causally ordered. -/
theorem reachable_causal {heavy : Nat → Nat → α} {size num_slaves : Nat} {st : Master α}
    (h : Reachable heavy size num_slaves st) : Causal st.trace := by
  induction h with
  | prime => rw [priming_eq]; exact causal_primeTrace _ _
  | step st st' c hr _ hbody ih =>
    obtain ⟨act, hinv⟩ := reachable_schedInv hr
    obtain ⟨w, v, hrecv, rfl⟩ := loopBody_eq_some hbody
    obtain ⟨idxs, i, hlen, hmem, hin, rfl⟩ :=
      pendingResult_some heavy (hinv.worker w) (MPI_Recv_any_some hrecv).2
    have htc : taskCount w st.trace = recvCount w st.trace + 1 := by
      rw [taskCount_of_state (hinv.worker w),
        if_pos (List.mem_map.mpr ⟨(w, i), hmem, rfl⟩)]
    rw [handleResult_trace]
    refine causal_snoc (causal_snoc ih _ ?_ ?_) _ ?_ ?_
    · intro u m h; cases h
    · intro u x h
      injection h with h1 h2
      subst h1
      omega
    · intro u m h
      injection h with h1 h2
      subst h1
      rw [taskCount_snoc_recv, recvCount_append, recvCount_recv, if_pos rfl, htc]
    · intro u x h; cases h

/-- The final loop keeps the causal order when no worker holds a task. -/
theorem causal_sweep {heavy : Nat → Nat → α} {size num_slaves : Nat} {st : Master α}
    (hinv : SchedInv heavy size num_slaves st []) (hc : Causal st.trace) (n : Nat) :
    Causal (st.trace ++ sweepTrace n) := by
  induction n with
  | zero => simpa [sweepTrace] using hc
  | succ n ih =>
    rw [sweepTrace_succ, ← List.append_assoc]
    refine causal_snoc ih _ ?_ ?_
    · intro w m h
      injection h with h1 h2
      subst h1
      have h0 := taskCount_of_state (hinv.worker (n + 1))
      simp only [List.map_nil, List.not_mem_nil, if_false, Nat.add_zero] at h0
      rw [taskCount_append, recvCount_append, h0, recvCount_sweepTrace]
      have hn : ¬ (1 ≤ n + 1 ∧ n + 1 ≤ n) := by omega
      simp [taskCount, inboxOf_sweepTrace, hn]
    · intro w v h
      cases h

end CausalRun

/-! ## The trace of a complete run -/

section FinalTrace
variable {α : Type}

@[simp] theorem resultCount_nil : resultCount ([] : List (Event α)) = 0 := rfl

@[simp] theorem resultCount_append (s t : List (Event α)) :
    resultCount (s ++ t) = resultCount s + resultCount t := by
  simp [resultCount, List.countP_append]

@[simp] theorem resultCount_cons_send (d : Nat) (m : Message) (t : List (Event α)) :
    resultCount (Event.send d m :: t) = resultCount t := by
  simp [resultCount, List.countP_cons]

@[simp] theorem resultCount_cons_recv (s : Nat) (v : α) (t : List (Event α)) :
    resultCount (Event.recv s v :: t) = resultCount t + 1 := by
  simp [resultCount, List.countP_cons]

@[simp] theorem taskSends_cons_send (d : Nat) (m : Message) (t : List (Event α)) :
    taskSends (Event.send d m :: t) =
      if m.tag = TASK_TAG then m :: taskSends t else taskSends t := by
  by_cases h : m.tag = TASK_TAG <;> simp [taskSends, List.filterMap_cons, h]

@[simp] theorem taskSends_cons_recv (s : Nat) (v : α) (t : List (Event α)) :
    taskSends (Event.recv s v :: t) = taskSends t := by
  simp [taskSends, List.filterMap_cons]

@[simp] theorem taskSends_nil : taskSends ([] : List (Event α)) = [] := rfl

theorem resultCount_primeTrace (size k : Nat) :
    resultCount (primeTrace size k : List (Event α)) = 0 := by
  induction k with
  | zero => rfl
  | succ k ih => rw [primeTrace_succ, resultCount_append, ih]; simp

/-- Before the first termination message to `w`, the results of a first part of the trace that
sends `w` no termination message all count. -/
theorem resultsBeforeTerminate_append (w : Nat) (s t : List (Event α))
    (hs : ∀ m ∈ inboxOf w s, m.tag ≠ TERMINATE_TAG) :
    resultsBeforeTerminate w (s ++ t) =
      (resultsBeforeTerminate w t).map (· + resultCount s) := by
  induction s with
  | nil => simp
  | cons e rest ih =>
    cases e with
    | send d m =>
      have hrest : ∀ m ∈ inboxOf w rest, m.tag ≠ TERMINATE_TAG := by
        intro x hx
        apply hs x
        rw [inboxOf_cons_send]
        split
        · exact List.mem_cons_of_mem _ hx
        · exact hx
      have hno : ¬ (d = w ∧ m.tag = TERMINATE_TAG) := by
        rintro ⟨h1, h2⟩
        exact hs m (by rw [inboxOf_cons_send, if_pos h1]; exact List.mem_cons_self _ _) h2
      show resultsBeforeTerminate w (Event.send d m :: (rest ++ t)) = _
      rw [resultsBeforeTerminate, if_neg hno, ih hrest, resultCount_cons_send]
    | recv src v =>
      have hrest : ∀ m ∈ inboxOf w rest, m.tag ≠ TERMINATE_TAG := by
        intro x hx
        exact hs x (by rw [inboxOf_cons_recv]; exact hx)
      show resultsBeforeTerminate w (Event.recv src v :: (rest ++ t)) = _
      rw [resultsBeforeTerminate, ih hrest, resultCount_cons_recv, Option.map_map]
      congr 1

theorem resultsBeforeTerminate_sends (w : Nat) (l : List Nat) :
    resultsBeforeTerminate w (l.map fun i => (Event.send i terminateMsg : Event α)) =
      if w ∈ l then some 0 else none := by
  induction l with
  | nil => rfl
  | cons i rest ih =>
    simp only [List.map_cons, resultsBeforeTerminate, terminateMsg_tag, and_true, ih,
      List.mem_cons]
    by_cases h : i = w
    · simp [h]
    · have h' : ¬ w = i := fun e => h e.symm
      simp [h, h']

theorem resultsBeforeTerminate_sweep (w n : Nat) :
    resultsBeforeTerminate w (sweepTrace n : List (Event α)) =
      if 1 ≤ w ∧ w ≤ n then some 0 else none := by
  rw [sweepTrace, resultsBeforeTerminate_sends]
  by_cases h : 1 ≤ w ∧ w ≤ n
  · rw [if_pos h, if_pos]
    exact List.mem_range'_1.mpr ⟨h.1, by omega⟩
  · rw [if_neg h, if_neg]
    intro hm
    have := List.mem_range'_1.mp hm
    exact h ⟨this.1, by omega⟩

theorem taskMsg_injective (size : Nat) : Function.Injective (taskMsg size) := by
  intro i j h
  simp only [taskMsg, Message.mk.injEq, Option.some.injEq, Task.mk.injEq, true_and] at h
  rw [← Nat.div_add_mod i size, ← Nat.div_add_mod j size, h.1, h.2]

end FinalTrace

section FinalRun
variable {α : Type} [AddCommMonoid α]

theorem reachable_resultCount {heavy : Nat → Nat → α} {size num_slaves : Nat} {st : Master α}
    (h : Reachable heavy size num_slaves st) : resultCount st.trace = st.tasks_received := by
  induction h with
  | prime => rw [priming_eq]; exact resultCount_primeTrace _ _
  | step st st' c _ _ hbody ih =>
    obtain ⟨w, v, _, rfl⟩ := loopBody_eq_some hbody
    rw [handleResult_trace, handleResult_received]
    simp [ih]

/-- The task messages of the trace are those of the indices below `tasks_sent`, in
increasing order. -/
theorem reachable_taskSends {heavy : Nat → Nat → α} {size num_slaves : Nat} {st : Master α}
    (h : Reachable heavy size num_slaves st) :
    taskSends st.trace = (List.range st.tasks_sent).map (taskMsg size) := by
  induction h with
  | prime => rw [priming_eq]; exact taskSends_primeTrace _ _
  | step st st' c _ _ hbody ih =>
    obtain ⟨w, v, _, rfl⟩ := loopBody_eq_some hbody
    rw [handleResult_trace, handleResult_sent]
    by_cases hlt : st.tasks_sent < size * size
    · simp [hlt, ih, List.range_succ, taskMsg_tag]
    · simp [hlt, ih, terminateMsg, TASK_TAG, TERMINATE_TAG]

/-- When no worker holds a task, the inbox of a worker of rank `1..initial_tasks` is a list
of tasks followed by one termination message, and the other inboxes are empty. -/
theorem done_inbox {heavy : Nat → Nat → α} {size num_slaves : Nat} {st : Master α}
    (hinv : SchedInv heavy size num_slaves st []) (w : Nat) :
    (1 ≤ w ∧ w ≤ initial_tasks size num_slaves →
      ∃ idxs : List Nat, idxs.length = recvCount w st.trace ∧
        inboxOf w st.trace = idxs.map (taskMsg size) ++ [terminateMsg]) ∧
    (¬ (1 ≤ w ∧ w ≤ initial_tasks size num_slaves) → inboxOf w st.trace = []) := by
  obtain ⟨idxs, hlen, h | h | h⟩ := hinv.worker w
  · obtain ⟨i, hmem, _⟩ := h
    cases hmem
  · exact ⟨fun _ => ⟨idxs, hlen, h.2.2⟩, fun hn => absurd h.2.1 hn⟩
  · exact ⟨fun hy => absurd hy h.2.1, fun _ => h.2.2.1⟩

end FinalRun

/-! ## Counting the termination messages -/

section Terminations
variable {α : Type}

@[simp] theorem terminateSends_nil : terminateSends ([] : List (Event α)) = 0 := rfl

@[simp] theorem terminateSends_append (s t : List (Event α)) :
    terminateSends (s ++ t) = terminateSends s + terminateSends t := by
  simp [terminateSends, List.countP_append]

@[simp] theorem terminateSends_cons_send (d : Nat) (m : Message) (t : List (Event α)) :
    terminateSends (Event.send d m :: t) =
      terminateSends t + if m.tag = TERMINATE_TAG then 1 else 0 := by
  by_cases h : m.tag = TERMINATE_TAG <;> simp [terminateSends, List.countP_cons, h]

@[simp] theorem terminateSends_cons_recv (s : Nat) (v : α) (t : List (Event α)) :
    terminateSends (Event.recv s v :: t) = terminateSends t := by
  simp [terminateSends, List.countP_cons]

theorem terminateSends_primeTrace (size k : Nat) :
    terminateSends (primeTrace size k : List (Event α)) = 0 := by
  induction k with
  | zero => rfl
  | succ k ih =>
    rw [primeTrace_succ, terminateSends_append, ih]
    simp [taskMsg_ne_terminate]

theorem terminateSends_sweepTrace (n : Nat) :
    terminateSends (sweepTrace n : List (Event α)) = n := by
  induction n with
  | zero => rfl
  | succ k ih =>
    rw [sweepTrace_succ, terminateSends_append, ih]
    simp [terminateMsg_tag]

theorem taskCount_sweepTrace (w n : Nat) :
    taskCount w (sweepTrace n : List (Event α)) = 0 := by
  rw [taskCount, inboxOf_sweepTrace]
  split <;> simp [terminateMsg, TASK_TAG, TERMINATE_TAG]

theorem terminateCount_sweepTrace (w n : Nat) :
    terminateCount w (sweepTrace n : List (Event α)) = if 1 ≤ w ∧ w ≤ n then 1 else 0 := by
  rw [terminateCount, inboxOf_sweepTrace]
  split <;> simp [terminateMsg]

end Terminations

section TerminationsRun
variable {α : Type} [AddCommMonoid α]

/-- The termination messages sent in the receive loop number the workers that were given a
task and hold none any more. -/
theorem reachable_terminateSends {heavy : Nat → Nat → α} {size num_slaves : Nat}
    {st : Master α} (h : Reachable heavy size num_slaves st) :
    terminateSends st.trace + st.tasks_sent =
      st.tasks_received + initial_tasks size num_slaves := by
  induction h with
  | prime => rw [priming_eq]; simp [terminateSends_primeTrace]
  | step st st' c _ _ hbody ih =>
    obtain ⟨w, v, _, rfl⟩ := loopBody_eq_some hbody
    rw [handleResult_trace, handleResult_sent, handleResult_received]
    by_cases hlt : st.tasks_sent < size * size
    · simp only [hlt, if_true, terminateSends_append, terminateSends_cons_recv,
        terminateSends_cons_send, terminateSends_nil, taskMsg_ne_terminate, if_false]
      omega
    · simp only [hlt, if_false, terminateSends_append, terminateSends_cons_recv,
        terminateSends_cons_send, terminateSends_nil, terminateMsg_tag, if_true]
      omega

/-- A worker of rank `1..initial_tasks` has been sent a task. -/
theorem reachable_taskCount_pos {heavy : Nat → Nat → α} {size num_slaves : Nat}
    {st : Master α} (h : Reachable heavy size num_slaves st) {w : Nat} (h1 : 1 ≤ w)
    (h2 : w ≤ initial_tasks size num_slaves) : 1 ≤ taskCount w st.trace := by
  induction h with
  | prime =>
    rw [priming_eq]
    simp [taskCount, inboxOf_primeTrace, h1, h2, taskMsg_tag]
  | step st st' c _ _ hbody ih =>
    obtain ⟨u, v, _, rfl⟩ := loopBody_eq_some hbody
    rw [handleResult_trace, taskCount_append, taskCount_append]
    omega

end TerminationsRun

/-! ## The send loop of the static partitioner -/

section StaticPartition

theorem rowsOf_rows (x_start : Int) (rows : Nat) :
    rowsOf x_start (x_start + rows - 1) = (List.range rows).map fun k : Nat => x_start + (k : Int) := by
  have h : (x_start + (rows : Int) - 1 - x_start + 1).toNat = rows := by
    have : x_start + (rows : Int) - 1 - x_start + 1 = (rows : Int) := by ring
    rw [this, Int.toNat_ofNat]
  rw [rowsOf, h]

theorem sendRanges_workers (q r : Nat) (ws : List Nat) (x0 : Int) :
    (sendRanges q r ws x0).map RowRange.worker = ws := by
  induction ws generalizing x0 with
  | nil => rfl
  | cons w rest ih => simp [sendRanges, ih]

theorem sendRanges_head (q r : Nat) (ws : List Nat) (x0 : Int) :
    ∀ y ∈ (sendRanges q r ws x0).head?, y.x_start = x0 := by
  cases ws with
  | nil => simp [sendRanges]
  | cons w rest => simp [sendRanges]

theorem sendRanges_chain (q r : Nat) (ws : List Nat) (x0 : Int) :
    List.Chain' (fun a b : RowRange => b.x_start = a.x_end + 1) (sendRanges q r ws x0) := by
  induction ws generalizing x0 with
  | nil => simp [sendRanges]
  | cons w rest ih =>
    rw [sendRanges, List.chain'_cons']
    exact ⟨fun y hy => sendRanges_head q r rest _ y hy, ih _⟩

theorem sendRanges_mem (q r : Nat) (ws : List Nat) (x0 : Int) :
    ∀ e ∈ sendRanges q r ws x0,
      e.x_end = e.x_start + ((q + (if e.worker ≤ r then 1 else 0) : Nat) : Int) - 1 := by
  induction ws generalizing x0 with
  | nil => simp [sendRanges]
  | cons w rest ih =>
    intro e he
    rw [sendRanges, List.mem_cons] at he
    rcases he with rfl | he
    · rfl
    · exact ih _ e he

theorem sendRanges_rowCount (q r : Nat) (ws : List Nat) (x0 : Int) :
    (sendRanges q r ws x0).map rowCount = ws.map fun w => q + (if w ≤ r then 1 else 0) := by
  induction ws generalizing x0 with
  | nil => rfl
  | cons w rest ih =>
    rw [sendRanges, List.map_cons, List.map_cons, ih]
    congr 1
    simp only [rowCount, rowsOf_rows, List.length_map, List.length_range]

theorem sendRanges_rows (q r : Nat) (ws : List Nat) (x0 : Int) :
    (sendRanges q r ws x0).flatMap (fun e => rowsOf e.x_start e.x_end) =
      (List.range (rowsTotal q r ws)).map fun k : Nat => x0 + (k : Int) := by
  induction ws generalizing x0 with
  | nil => simp [sendRanges, rowsTotal]
  | cons w rest ih =>
    rw [sendRanges, List.flatMap_cons, ih]
    simp only [rowsTotal, List.map_cons, List.sum_cons]
    generalize (q + if w ≤ r then 1 else 0) = rows
    generalize (List.map (fun w => q + if w ≤ r then 1 else 0) rest).sum = m
    rw [rowsOf_rows, List.range_add rows m, List.map_append, List.map_map]
    congr 1
    apply List.map_congr_left
    intro k _
    simp only [Function.comp, Nat.cast_add]
    ring

theorem sendRanges_last (q r : Nat) (ws : List Nat) (x0 : Int) (hne : ws ≠ []) :
    (sendRanges q r ws x0).getLast?.map RowRange.x_end =
      some (x0 + (rowsTotal q r ws : Int) - 1) := by
  induction ws generalizing x0 with
  | nil => exact absurd rfl hne
  | cons w rest ih =>
    cases rest with
    | nil => simp [sendRanges, rowsTotal]
    | cons w' more =>
      have h := ih (x0 + ((q + (if w ≤ r then 1 else 0) : Nat) : Int) - 1 + 1) (by simp)
      rw [sendRanges]
      rw [sendRanges] at h ⊢
      rw [List.getLast?_cons_cons, h]
      simp only [rowsTotal, List.map_cons, List.sum_cons, Nat.cast_add, Option.some.injEq]
      ring

theorem rowsTotal_range' (q r n : Nat) :
    rowsTotal q r (List.range' 1 n) = q * n + min n r := by
  induction n with
  | zero => simp [rowsTotal]
  | succ n ih =>
    have hc : List.range' 1 (n + 1) = List.range' 1 n ++ [n + 1] := by
      rw [List.range'_concat]; simp [Nat.add_comm]
    have ih' : (List.map (fun w => q + if w ≤ r then 1 else 0) (List.range' 1 n)).sum
        = q * n + min n r := ih
    rw [rowsTotal, hc, List.map_append, List.sum_append, ih']
    simp only [List.map_cons, List.map_nil, List.sum_cons, List.sum_nil]
    have hq : q * (n + 1) = q * n + q := by ring
    rw [hq]
    split <;> omega

theorem rowsTotal_partition (size n : Nat) (hn : 1 ≤ n) :
    rowsTotal (size / n) (size % n) (List.range' 1 n) = size := by
  rw [rowsTotal_range']
  have h1 : size % n < n := Nat.mod_lt _ hn
  have h2 := Nat.div_add_mod size n
  have h3 : size / n * n = n * (size / n) := Nat.mul_comm _ _
  omega

theorem static_partition_eq (size n : Nat) (hn : 1 ≤ n) :
    static_partition size n =
      some (sendRanges (size / n) (size % n) (List.range' 1 n) 0) := by
  have h0 : n ≠ 0 := by omega
  simp [static_partition, int_div, int_mod, h0]

end StaticPartition

/-! ## The claims -/

/-- C1: with at least one worker, for every scheduler of the arrivals, `master_process`
returns and the accumulator it emits is the value `run_sequential` computes; the same holds
in every state at the head of the receive loop, however reached, in which all results are in;
every worker with a deliverable result can be the one the receive selects; and the value of
`run_sequential` is the sum of `heavy x y` over the grid `[0,size) × [0,size)`. -/
theorem master_process_answer {α : Type} [AddCommMonoid α] (heavy : Nat → Nat → α)
    (size num_slaves : Nat) (hn : 1 ≤ num_slaves) :
    (∀ sched : Nat → Nat, ∃ st, master_process heavy size num_slaves sched = some st ∧
      st.final_answer = run_sequential heavy size) ∧
    (∀ st, Reachable heavy size num_slaves st → st.tasks_received = size * size →
      st.final_answer = run_sequential heavy size) ∧
    (∀ (trace : List (Event α)) (w : Nat) (v : α), 1 ≤ w → w ≤ num_slaves →
      pendingResult heavy trace w = some v →
      ∃ c, MPI_Recv_any heavy num_slaves trace c = some (w, v)) ∧
    run_sequential heavy size =
      ∑ x in Finset.range size, ∑ y in Finset.range size, heavy x y := by
  refine ⟨?_, ?_, ?_, run_sequential_eq_sum heavy size⟩
  · intro sched
    obtain ⟨st0, hr, hd, hrun⟩ := master_process_complete heavy size hn sched
    refine ⟨_, hrun, ?_⟩
    rw [finalSweep_answer, (reachable_done hr hd).2.2, sum_tasks_eq_sequential]
  · intro st hr hd
    rw [(reachable_done hr hd).2.2, sum_tasks_eq_sequential]
  · intro trace w v h1 h2 hv
    exact MPI_Recv_any_complete h1 h2 hv

/-- Witness of `master_process_answer`: a 2 x 2 grid, three workers, the scheduler that
makes choice `k` at the `k`-th receive. -/
theorem master_process_answer_witness :
    1 ≤ 3 ∧ ∃ st, master_process heavyEx 2 3 (fun k => k) = some st ∧
      st.final_answer = run_sequential heavyEx 2 :=
  ⟨by decide, (master_process_answer heavyEx 2 3 (by decide)).1 (fun k => k)⟩

/-- C2, evaluated on the code at `num_slaves = 1` (two processes, `SIZE = 30`): for every
cost function and every scheduler the run returns, and the messages sent to worker 1 are
task messages followed by two termination messages, the one of line 108 and the one of
line 114; the master addresses a second termination message to the worker after its
first. -/
theorem terminate_sent_twice {α : Type} [AddCommMonoid α] (heavy : Nat → Nat → α)
    (sched : Nat → Nat) :
    ∃ (st : Master α) (idxs : List Nat), master_process heavy SIZE 1 sched = some st ∧
      inboxOf 1 st.trace = idxs.map (taskMsg SIZE) ++ [terminateMsg, terminateMsg] ∧
      terminateCount 1 st.trace = 2 := by
  obtain ⟨st0, hr, hd, hrun⟩ := master_process_complete heavy SIZE (le_refl 1) sched
  have hinv := (reachable_done hr hd).1
  have hi : initial_tasks SIZE 1 = 1 := by decide
  obtain ⟨idxs, _, hin⟩ := (done_inbox hinv 1).1 (by rw [hi]; exact ⟨le_refl 1, le_refl 1⟩)
  have hfin : inboxOf 1 (finalSweep 1 st0).trace =
      idxs.map (taskMsg SIZE) ++ [terminateMsg, terminateMsg] := by
    rw [finalSweep_trace, inboxOf_append, hin, inboxOf_sweepTrace]
    simp
  refine ⟨_, idxs, hrun, hfin, ?_⟩
  rw [terminateCount, hfin, List.countP_append, countP_terminate_map]
  simp [terminateMsg]

/-- C3 as stated fails at `num_workers = 20`, `size = 4`: when the first termination
message to worker 17 is sent, the master has received 16 results, not none. -/
theorem late_terminate_counterexample :
    (master_process heavyEx 4 20 (fun k => k)).map
        (fun st => resultsBeforeTerminate 17 st.trace) = some (some 16) ∧
    ¬ (master_process heavyEx 4 20 (fun k => k)).map
        (fun st => resultsBeforeTerminate 17 st.trace) = some (some 0) := by
  decide

/-- C3, amended: when `num_slaves > total_tasks`, for every scheduler the run returns, and a
worker of rank `w` with `total_tasks < w ≤ num_slaves` is sent nothing before the final loop
and exactly one message in the whole run, a termination message (so it is never sent a
task); that message is sent after the master has received all `total_tasks` results. -/
theorem late_terminate {α : Type} [AddCommMonoid α] (heavy : Nat → Nat → α)
    (size num_slaves : Nat) (hn : size * size < num_slaves) (sched : Nat → Nat) (w : Nat)
    (hw : size * size < w) (hw' : w ≤ num_slaves) :
    ∃ st0, Reachable heavy size num_slaves st0 ∧ st0.tasks_received = size * size ∧
      master_process heavy size num_slaves sched = some (finalSweep num_slaves st0) ∧
      inboxOf w st0.trace = [] ∧
      inboxOf w (finalSweep num_slaves st0).trace = [terminateMsg] ∧
      resultsBeforeTerminate w (finalSweep num_slaves st0).trace = some (size * size) := by
  have h1 : 1 ≤ num_slaves := by omega
  obtain ⟨st0, hr, hd, hrun⟩ := master_process_complete heavy size h1 sched
  have hinv := (reachable_done hr hd).1
  have hi := initial_tasks_le_total size num_slaves
  have hin : inboxOf w st0.trace = [] := (done_inbox hinv w).2 (fun h => by omega)
  have hwn : 1 ≤ w ∧ w ≤ num_slaves := ⟨by omega, hw'⟩
  refine ⟨st0, hr, hd, hrun, hin, ?_, ?_⟩
  · rw [finalSweep_trace, inboxOf_append, hin, inboxOf_sweepTrace, if_pos hwn]
    rfl
  · rw [finalSweep_trace, resultsBeforeTerminate_append _ _ _ (by simp [hin]),
      resultsBeforeTerminate_sweep, if_pos hwn, reachable_resultCount hr, hd]
    simp

/-- Witness of `late_terminate`: the spec's scenario, a 4 x 4 grid, 20 workers, worker 17. -/
theorem late_terminate_witness :
    4 * 4 < 20 ∧ 4 * 4 < 17 ∧ 17 ≤ 20 ∧
    ∃ st0, Reachable heavyEx 4 20 st0 ∧ st0.tasks_received = 4 * 4 ∧
      master_process heavyEx 4 20 (fun k => k) = some (finalSweep 20 st0) ∧
      inboxOf 17 st0.trace = [] ∧
      inboxOf 17 (finalSweep 20 st0).trace = [terminateMsg] ∧
      resultsBeforeTerminate 17 (finalSweep 20 st0).trace = some (4 * 4) :=
  ⟨by decide, by decide, by decide,
    late_terminate heavyEx 4 20 (by decide) (fun k => k) 17 (by decide) (by decide)⟩

/-- C4: in every state at the head of the receive loop,
`0 ≤ tasks_received ≤ tasks_sent ≤ total_tasks`. -/
theorem counters_ordered {α : Type} [AddCommMonoid α] (heavy : Nat → Nat → α)
    (size num_slaves : Nat) (st : Master α) (hr : Reachable heavy size num_slaves st) :
    0 ≤ st.tasks_received ∧ st.tasks_received ≤ st.tasks_sent ∧
      st.tasks_sent ≤ size * size := by
  have h := reachable_counters hr
  exact ⟨Nat.zero_le _, h.1, h.2.1⟩

/-- Witness of `counters_ordered`: the state after the first iteration of the receive loop
on a 2 x 2 grid with three workers, the result of worker 1 arriving first. -/
theorem counters_ordered_witness :
    Reachable heavyEx 2 3 (handleResult 2 (priming 2 3) 1 (heavyEx 0 0)) ∧
    (0 ≤ (handleResult 2 (priming 2 3) 1 (heavyEx 0 0)).tasks_received ∧
      (handleResult 2 (priming 2 3) 1 (heavyEx 0 0)).tasks_received ≤
        (handleResult 2 (priming 2 3) 1 (heavyEx 0 0)).tasks_sent ∧
      (handleResult 2 (priming 2 3) 1 (heavyEx 0 0)).tasks_sent ≤ 2 * 2) :=
  ⟨Reachable.step _ _ 0 Reachable.prime (by decide) (by decide),
    counters_ordered heavyEx 2 3 _
      (Reachable.step _ _ 0 Reachable.prime (by decide) (by decide))⟩

/-- C5: in every state at the head of the receive loop the tasks sent but not yet resulted
number at most `num_slaves`: `tasks_received ≤ tasks_sent` and
`tasks_sent - tasks_received ≤ num_slaves`; the same bound holds after each iteration of the
initial loop, where no result is in yet. -/
theorem in_flight_bound {α : Type} [AddCommMonoid α] (heavy : Nat → Nat → α)
    (size num_slaves : Nat) (st : Master α) (hr : Reachable heavy size num_slaves st) :
    (st.tasks_received ≤ st.tasks_sent ∧ st.tasks_sent - st.tasks_received ≤ num_slaves) ∧
    ∀ k, k ≤ initial_tasks size num_slaves →
      ((List.range k).foldl (sendInitial size) (initMaster : Master α)).tasks_received = 0 ∧
      ((List.range k).foldl (sendInitial size) (initMaster : Master α)).tasks_sent
        ≤ num_slaves := by
  have h := reachable_counters hr
  have hi := initial_tasks_le_num size num_slaves
  refine ⟨⟨h.1, by omega⟩, ?_⟩
  intro k hk
  rw [foldl_sendInitial]
  simp only [initMaster, Nat.zero_add, true_and]
  omega

/-- Witness of `in_flight_bound`: the state after the first iteration of the receive loop
on a 2 x 2 grid with three workers, the result of worker 1 arriving first. -/
theorem in_flight_bound_witness :
    Reachable heavyEx 2 3 (handleResult 2 (priming 2 3) 1 (heavyEx 0 0)) ∧
    (handleResult 2 (priming 2 3) 1 (heavyEx 0 0)).tasks_sent
      - (handleResult 2 (priming 2 3) 1 (heavyEx 0 0)).tasks_received ≤ 3 :=
  ⟨Reachable.step _ _ 0 Reachable.prime (by decide) (by decide),
    (in_flight_bound heavyEx 2 3 _
      (Reachable.step _ _ 0 Reachable.prime (by decide) (by decide))).1.2⟩

/-- C6: in every state `st` at the head of the receive loop, an iteration of the loop does
not decrease `tasks_sent` and increments `tasks_received`; the loop condition is false
exactly when `tasks_received = total_tasks`; both counters equal `total_tasks` exactly in
the states where the loop condition is false, so in no state from which the loop goes on;
the steps of the initial and final loops do not decrease the counters either; and with at
least one worker every run reaches such a state and returns with both counters at
`total_tasks`. -/
theorem counters_monotone {α : Type} [AddCommMonoid α] (heavy : Nat → Nat → α)
    (size num_slaves : Nat) (st : Master α) (hr : Reachable heavy size num_slaves st) :
    (∀ c st', loopBody heavy size num_slaves st c = some st' →
      st.tasks_sent ≤ st'.tasks_sent ∧ st.tasks_received ≤ st'.tasks_received ∧
      st'.tasks_received = st.tasks_received + 1) ∧
    (¬ st.tasks_received < size * size ↔ st.tasks_received = size * size) ∧
    ((st.tasks_sent = size * size ∧ st.tasks_received = size * size) ↔
      ¬ st.tasks_received < size * size) ∧
    (∀ (s : Master α) (i : Nat), s.tasks_sent ≤ (sendInitial size s i).tasks_sent ∧
      s.tasks_received ≤ (sendInitial size s i).tasks_received) ∧
    (∀ s : Master α, (finalSweep num_slaves s).tasks_sent = s.tasks_sent ∧
      (finalSweep num_slaves s).tasks_received = s.tasks_received) ∧
    (1 ≤ num_slaves → ∀ sched : Nat → Nat, ∃ st', master_process heavy size num_slaves sched
      = some st' ∧ st'.tasks_sent = size * size ∧ st'.tasks_received = size * size) := by
  have h := reachable_counters hr
  refine ⟨?_, ?_, ?_, ?_, ?_, ?_⟩
  · intro c st' hb
    obtain ⟨w, v, _, rfl⟩ := loopBody_eq_some hb
    rw [handleResult_received, handleResult_sent]
    split <;> omega
  · constructor <;> intro hx <;> omega
  · constructor
    · rintro ⟨_, h2⟩; omega
    · intro hx
      have hd : st.tasks_received = size * size := by omega
      exact ⟨(reachable_done hr hd).2.1, hd⟩
  · intro s i
    simp [sendInitial]
  · intro s
    simp
  · intro hn sched
    obtain ⟨st0, hr0, hd, hrun⟩ := master_process_complete heavy size hn sched
    exact ⟨_, hrun, by simp [(reachable_done hr0 hd).2.1], by simp [hd]⟩

/-- Witness of `counters_monotone`: the state after the initial loop on a 2 x 2 grid with
three workers; the first iteration of the receive loop takes the counters from
`(3, 0)` to `(4, 1)`. -/
theorem counters_monotone_witness :
    Reachable heavyEx 2 3 (priming 2 3) ∧
    (∀ c st', loopBody heavyEx 2 3 (priming 2 3) c = some st' →
      (priming 2 3 : Master Int).tasks_sent ≤ st'.tasks_sent ∧
      (priming 2 3 : Master Int).tasks_received ≤ st'.tasks_received ∧
      st'.tasks_received = (priming 2 3 : Master Int).tasks_received + 1) :=
  ⟨Reachable.prime, (counters_monotone heavyEx 2 3 _ Reachable.prime).1⟩

/-- C7: the initial loop sends index `i` to worker `i + 1` for each
`i < min(num_slaves, total_tasks)`; an iteration of the receive loop with a task left sends
the worker whose result it received the task of index `tasks_sent`, of coordinates
`(tasks_sent / size, tasks_sent % size)`, and increments `tasks_sent`; so in every state at
the head of the receive loop the task messages sent so far are those of the indices
`0, 1, ..., tasks_sent - 1` in this order, and in a complete run they are those of all the
indices below `total_tasks` in increasing order, each sent exactly once. -/
theorem dispatch_order {α : Type} [AddCommMonoid α] (heavy : Nat → Nat → α)
    (size num_slaves : Nat) (hn : 1 ≤ num_slaves) (sched : Nat → Nat) :
    (priming size num_slaves : Master α).trace =
      ((List.range (min num_slaves (size * size))).map fun i =>
        Event.send (i + 1) ⟨TASK_TAG, some ⟨i / size, i % size⟩⟩) ∧
    (∀ (st : Master α) (w : Nat) (v : α), st.tasks_sent < size * size →
      (handleResult size st w v).trace = st.trace ++ [Event.recv w v,
        Event.send w ⟨TASK_TAG, some ⟨st.tasks_sent / size, st.tasks_sent % size⟩⟩] ∧
      (handleResult size st w v).tasks_sent = st.tasks_sent + 1) ∧
    (∀ st, Reachable heavy size num_slaves st →
      taskSends st.trace = (List.range st.tasks_sent).map fun i =>
        (⟨TASK_TAG, some ⟨i / size, i % size⟩⟩ : Message)) ∧
    (∃ st, master_process heavy size num_slaves sched = some st ∧
      taskSends st.trace = ((List.range (size * size)).map fun i =>
        (⟨TASK_TAG, some ⟨i / size, i % size⟩⟩ : Message)) ∧
      ∀ i, i < size * size →
        (taskSends st.trace).count ⟨TASK_TAG, some ⟨i / size, i % size⟩⟩ = 1) := by
  refine ⟨?_, ?_, ?_, ?_⟩
  · rw [priming_eq]
    have hmin : initial_tasks size num_slaves = min num_slaves (size * size) := by
      unfold initial_tasks
      split <;> omega
    rw [hmin]
    rfl
  · intro st w v hlt
    rw [handleResult_trace, handleResult_sent, if_pos hlt, if_pos hlt]
    exact ⟨by simp [taskMsg], rfl⟩
  · intro st hr
    exact reachable_taskSends hr
  · obtain ⟨st0, hr, hd, hrun⟩ := master_process_complete heavy size hn sched
    have hts : taskSends (finalSweep num_slaves st0).trace =
        (List.range (size * size)).map (taskMsg size) := by
      rw [finalSweep_trace, taskSends_append, taskSends_sweepTrace, List.append_nil,
        reachable_taskSends hr, (reachable_done hr hd).2.1]
    refine ⟨_, hrun, hts, ?_⟩
    intro i hi
    rw [hts]
    exact List.count_eq_one_of_mem ((List.nodup_range _).map (taskMsg_injective size))
      (List.mem_map.mpr ⟨i, List.mem_range.mpr hi, rfl⟩)

/-- Witness of `dispatch_order`: with `size = 4` and three workers the initial loop sends
index 0 to worker 1, index 1 to worker 2 and index 2 to worker 3. -/
theorem dispatch_order_witness :
    1 ≤ 3 ∧ (priming 4 3 : Master Int).trace =
      [Event.send 1 ⟨TASK_TAG, some ⟨0, 0⟩⟩, Event.send 2 ⟨TASK_TAG, some ⟨0, 1⟩⟩,
        Event.send 3 ⟨TASK_TAG, some ⟨0, 2⟩⟩] :=
  ⟨by decide, (dispatch_order heavyEx 4 3 (by decide) (fun k => k)).1.trans (by decide)⟩

/-- C8: for `size ≥ 1` the enumerator `i ↦ (i / size, i % size)`, whose value the master's
task message for index `i` carries, maps `[0, size * size)` one-to-one onto the grid: both
coordinates of a result are below `size`, the result determines its index by
`x * size + y = i`, and each grid cell is the image of exactly one index below
`size * size`. -/
theorem enumerate_bijective (size : Nat) (hs : 1 ≤ size) :
    (∀ i, taskMsg size i =
      ⟨TASK_TAG, some ⟨(enumerate size i).1, (enumerate size i).2⟩⟩) ∧
    (∀ i, i < size * size →
      (enumerate size i).1 < size ∧ (enumerate size i).2 < size ∧
      (enumerate size i).1 * size + (enumerate size i).2 = i) ∧
    (∀ x y, x < size → y < size →
      ∃ i, (i < size * size ∧ enumerate size i = (x, y)) ∧
        ∀ j, j < size * size ∧ enumerate size j = (x, y) → j = i) := by
  refine ⟨fun i => rfl,
    fun i hi => ⟨enumerate_fst_lt hi, enumerate_snd_lt hs i, enumerate_index size i⟩, ?_⟩
  intro x y hx hy
  refine ⟨x * size + y, ⟨cell_index_lt hx hy, enumerate_cell hy⟩, ?_⟩
  rintro j ⟨_, hj⟩
  have h := enumerate_index size j
  rw [hj] at h
  exact h.symm

/-- Witness of `enumerate_bijective` at the source's grid, `SIZE = 30`. -/
theorem enumerate_bijective_witness :
    1 ≤ SIZE ∧
    (∀ i, i < SIZE * SIZE →
      (enumerate SIZE i).1 < SIZE ∧ (enumerate SIZE i).2 < SIZE ∧
      (enumerate SIZE i).1 * SIZE + (enumerate SIZE i).2 = i) ∧
    (∀ x y, x < SIZE → y < SIZE →
      ∃ i, (i < SIZE * SIZE ∧ enumerate SIZE i = (x, y)) ∧
        ∀ j, j < SIZE * SIZE ∧ enumerate SIZE j = (x, y) → j = i) :=
  ⟨by decide, (enumerate_bijective SIZE (by decide)).2⟩

/-- C9: `main` returns a non-zero status exactly when the process count is below 2, and
that status is 1; in that case neither `master_process` nor `slave_process` is entered and
rank 0 runs `run_sequential`; with two processes or more `main` returns 0, rank 0 runs
`master_process` with `size - 1` workers and every other rank runs `slave_process`. -/
theorem main_status {α : Type} [AddCommMonoid α] (heavy : Nat → Nat → α) (sched : Nat → Nat)
    (rank size : Nat) :
    ((main heavy sched rank size).1 ≠ 0 ↔ size < 2) ∧
    (size < 2 → (main heavy sched rank size).1 = 1 ∧
      (main heavy sched rank size).2 =
        if rank = 0 then Routine.sequential (run_sequential heavy SIZE) else Routine.nothing) ∧
    (2 ≤ size → (main heavy sched rank size).1 = 0 ∧
      (main heavy sched rank size).2 =
        if rank = 0 then Routine.master (master_process heavy SIZE (size - 1) sched)
        else Routine.slave rank) := by
  by_cases h : size < 2
  · have h2 : ¬ 2 ≤ size := by omega
    simp [main, h, h2]
  · have h2 : 2 ≤ size := by omega
    simp [main, h, h2]

/-- C10: with at least one worker, for every scheduler the run returns and its trace is
causally ordered: at each message the master sends to a worker `w`, task or termination,
the tasks sent to `w` before equal in number the results received from `w` before, so `w`
holds no unanswered task; and at every point of the trace the results received from `w` are
at most the tasks sent to `w`, which are at most one more, so `w` holds at most one
unanswered task. -/
theorem causal_order {α : Type} [AddCommMonoid α] (heavy : Nat → Nat → α)
    (size num_slaves : Nat) (hn : 1 ≤ num_slaves) (sched : Nat → Nat) :
    ∃ st, master_process heavy size num_slaves sched = some st ∧
      (∀ p q w m, st.trace = p ++ Event.send w m :: q → taskCount w p = recvCount w p) ∧
      (∀ p q w, st.trace = p ++ q →
        recvCount w p ≤ taskCount w p ∧ taskCount w p ≤ recvCount w p + 1) := by
  obtain ⟨st0, hr, hd, hrun⟩ := master_process_complete heavy size hn sched
  have hc := causal_sweep (reachable_done hr hd).1 (reachable_causal hr) num_slaves
  rw [← finalSweep_trace] at hc
  exact ⟨_, hrun, hc.1, hc.2⟩

/-- Witness of `causal_order`: a 2 x 2 grid, three workers, the scheduler that makes choice
`k` at the `k`-th receive. -/
theorem causal_order_witness :
    1 ≤ 3 ∧ ∃ st, master_process heavyEx 2 3 (fun k => k) = some st ∧
      (∀ p q w m, st.trace = p ++ Event.send w m :: q → taskCount w p = recvCount w p) ∧
      (∀ p q w, st.trace = p ++ q →
        recvCount w p ≤ taskCount w p ∧ taskCount w p ≤ recvCount w p + 1) :=
  ⟨by decide, causal_order heavyEx 2 3 (by decide) (fun k => k)⟩

/-- C11 as stated fails: on the sequence TASK `{0, 1}`, a message tagged 7 with body
`{1, 2}`, TERMINATE, the worker sends two results, `heavy(0, 1)` and `heavy(1, 2)`, where
the contract prescribes one result for the one TASK and nothing else. -/
theorem slave_process_contract_counterexample :
    contractResults heavyEx
        [⟨TASK_TAG, some ⟨0, 1⟩⟩, ⟨7, some ⟨1, 2⟩⟩, ⟨TERMINATE_TAG, none⟩] = [heavyEx 0 1] ∧
    slave_process heavyEx ⟨0, 0⟩
        [⟨TASK_TAG, some ⟨0, 1⟩⟩, ⟨7, some ⟨1, 2⟩⟩, ⟨TERMINATE_TAG, none⟩] =
      [heavyEx 0 1, heavyEx 1 2] ∧
    slave_process heavyEx ⟨0, 0⟩
        [⟨TASK_TAG, some ⟨0, 1⟩⟩, ⟨7, some ⟨1, 2⟩⟩, ⟨TERMINATE_TAG, none⟩] ≠
      contractResults heavyEx
        [⟨TASK_TAG, some ⟨0, 1⟩⟩, ⟨7, some ⟨1, 2⟩⟩, ⟨TERMINATE_TAG, none⟩] := by
  decide

/-- C11, amended: on every sequence of messages `slave_process` sends exactly one result
for each message received before the first TERMINATE, whatever its tag, and nothing else;
the results are in the order of the messages, and the result for a message with body
`{x, y}`, so for a TASK `{x, y}`, is `heavy x y`; it leaves the loop at a TERMINATE without
a reply to it, so that neither the TERMINATE nor what follows it adds a result; and on a
sequence of the two kinds of messages the coordinator sends, a TASK with its body or a
TERMINATE, the results are exactly those the contract prescribes. -/
theorem slave_process_replies {α : Type} (heavy : Nat → Nat → α) (buf : Task)
    (msgs : List Message) :
    (slave_process heavy buf msgs).length =
      (msgs.takeWhile fun m => decide (m.tag ≠ TERMINATE_TAG)).length ∧
    (∀ (pre rest : List Message) (m : Message), m.tag = TERMINATE_TAG →
      slave_process heavy buf (pre ++ m :: rest) = slave_process heavy buf pre) ∧
    (∀ (pre rest : List Message) (tag : Nat) (t : Task),
      msgs = pre ++ ⟨tag, some t⟩ :: rest → (∀ p ∈ pre, p.tag ≠ TERMINATE_TAG) →
      tag ≠ TERMINATE_TAG →
      (slave_process heavy buf msgs).get? pre.length = some (heavy t.x t.y)) ∧
    ((∀ m ∈ msgs, (∃ t, m = ⟨TASK_TAG, some t⟩) ∨ m.tag = TERMINATE_TAG) →
      slave_process heavy buf msgs = contractResults heavy msgs) := by
  refine ⟨?_, ?_, ?_, ?_⟩
  · induction msgs generalizing buf with
    | nil => rfl
    | cons m rest ih =>
      by_cases hm : m.tag = TERMINATE_TAG
      · simp [slave_process, hm]
      · simp [slave_process, hm, List.takeWhile_cons, ih]
  · intro pre rest m hm
    induction pre generalizing buf with
    | nil => simp [slave_process, hm]
    | cons p more ih =>
      by_cases hp : p.tag = TERMINATE_TAG
      · simp [slave_process, hp]
      · simp [slave_process, hp, ih]
  · intro pre rest tag t hmsgs hpre htag
    subst hmsgs
    induction pre generalizing buf with
    | nil => simp [slave_process, htag]
    | cons p more ih =>
      have hp : p.tag ≠ TERMINATE_TAG := hpre p (List.mem_cons_self _ _)
      have hmore := fun x hx => hpre x (List.mem_cons_of_mem _ hx)
      have h := ih (p.body.getD buf) hmore
      simpa [slave_process, hp] using h
  · intro hwf
    induction msgs generalizing buf with
    | nil => rfl
    | cons m rest ih =>
      have hrest := fun x hx => hwf x (List.mem_cons_of_mem _ hx)
      rcases hwf m (List.mem_cons_self _ _) with ⟨t, rfl⟩ | hterm
      · have h := ih t hrest
        simp only [contractResults] at h
        simp [slave_process, contractResults, TASK_TAG, TERMINATE_TAG, h]
      · simp [slave_process, contractResults, hterm]

/-- Witness of `slave_process_replies`: two tasks, a termination message, and a task that
arrives after it; the worker answers the first two tasks only. -/
theorem slave_process_replies_witness :
    (∀ m ∈ ([⟨TASK_TAG, some ⟨0, 1⟩⟩, ⟨TASK_TAG, some ⟨2, 3⟩⟩, ⟨TERMINATE_TAG, none⟩,
        ⟨TASK_TAG, some ⟨4, 4⟩⟩] : List Message),
      (∃ t, m = ⟨TASK_TAG, some t⟩) ∨ m.tag = TERMINATE_TAG) ∧
    slave_process heavyEx ⟨0, 0⟩ [⟨TASK_TAG, some ⟨0, 1⟩⟩, ⟨TASK_TAG, some ⟨2, 3⟩⟩,
        ⟨TERMINATE_TAG, none⟩, ⟨TASK_TAG, some ⟨4, 4⟩⟩] = [heavyEx 0 1, heavyEx 2 3] :=
  ⟨by simp,
    ((slave_process_replies heavyEx ⟨0, 0⟩ _).2.2.2 (by simp)).trans (by decide)⟩

/-- C12 as stated fails: a message tagged `RESULT_TAG`, neither TASK nor TERMINATE, that
arrives at a worker with body `{1, 2}` is answered with the result `heavy(1, 2)`, and the
worker goes on to answer the task that follows. -/
theorem unexpected_tag_counterexample :
    RESULT_TAG ≠ TASK_TAG ∧ RESULT_TAG ≠ TERMINATE_TAG ∧
    slave_process heavyEx ⟨0, 0⟩ [⟨RESULT_TAG, some ⟨1, 2⟩⟩, ⟨TASK_TAG, some ⟨0, 1⟩⟩] =
      [heavyEx 1 2, heavyEx 0 1] ∧
    slave_process heavyEx ⟨0, 0⟩ [⟨RESULT_TAG, some ⟨1, 2⟩⟩] ≠ [] := by
  decide

/-- C12, amended: a message whose tag is not `TERMINATE_TAG`, so also one whose tag is
neither TASK nor TERMINATE, is handled as a task: the worker evaluates `heavy` on the
content of its buffer `task` after the receive (the body of the message, or the former
content when the message has no body), sends that result, and goes on with the next
message; and wherever such a message with body `{x, y}` arrives before the first
TERMINATE, the worker sends `heavy(x, y)` for it after the results of the messages before
it, and then answers the messages after it. -/
theorem unexpected_tag_answered {α : Type} (heavy : Nat → Nat → α) (buf : Task)
    (m : Message) (rest : List Message) (hm : m.tag ≠ TERMINATE_TAG) :
    slave_process heavy buf (m :: rest) =
      heavy (m.body.getD buf).x (m.body.getD buf).y ::
        slave_process heavy (m.body.getD buf) rest ∧
    ∀ (pre : List Message) (t : Task), (∀ p ∈ pre, p.tag ≠ TERMINATE_TAG) →
      m.body = some t →
      slave_process heavy buf (pre ++ m :: rest) =
        slave_process heavy buf pre ++ heavy t.x t.y :: slave_process heavy t rest := by
  constructor
  · simp [slave_process, hm]
  · intro pre t hpre hbody
    induction pre generalizing buf with
    | nil => simp [slave_process, hm, hbody]
    | cons p more ih =>
      have hp : p.tag ≠ TERMINATE_TAG := hpre p (List.mem_cons_self _ _)
      have hmore := fun x hx => hpre x (List.mem_cons_of_mem _ hx)
      simp [slave_process, hp, ih _ hmore]

/-- Witness of `unexpected_tag_answered`: a message tagged `RESULT_TAG` with body `{1, 2}`. -/
theorem unexpected_tag_answered_witness :
    (⟨RESULT_TAG, some ⟨1, 2⟩⟩ : Message).tag ≠ TERMINATE_TAG ∧
    slave_process heavyEx ⟨0, 0⟩ [⟨RESULT_TAG, some ⟨1, 2⟩⟩] =
      heavyEx 1 2 :: slave_process heavyEx ⟨1, 2⟩ [] :=
  ⟨by decide,
    (unexpected_tag_answered heavyEx ⟨0, 0⟩ ⟨RESULT_TAG, some ⟨1, 2⟩⟩ [] (by decide)).1⟩

/-- C13: for `num_workers ≥ 1` the static partitioner sends one range to each worker, in
the order of the ranks `1..num_workers`; the first range starts at row 0, each next range
starts at the previous `x_end + 1`, the last `x_end` is `size - 1`, and the rows the
workers compute for their ranges, taken in worker order, are exactly `0, 1, ..., size - 1`,
each once (so the ranges are contiguous, disjoint and cover the grid); a worker of rank
above `size` gets the empty range `x_end = x_start - 1`. -/
theorem static_ranges (size num_workers : Nat) (hn : 1 ≤ num_workers) :
    ∃ sends, static_partition size num_workers = some sends ∧
      sends.map RowRange.worker = List.range' 1 num_workers ∧
      sends.head?.map RowRange.x_start = some 0 ∧
      List.Chain' (fun a b : RowRange => b.x_start = a.x_end + 1) sends ∧
      sends.getLast?.map RowRange.x_end = some ((size : Int) - 1) ∧
      sends.flatMap (fun r => rowsOf r.x_start r.x_end) =
        (List.range size).map (fun k : Nat => (k : Int)) ∧
      (∀ r ∈ sends, size < r.worker →
        r.x_end = r.x_start - 1 ∧ rowsOf r.x_start r.x_end = []) := by
  refine ⟨_, static_partition_eq size num_workers hn, sendRanges_workers _ _ _ _, ?_,
    sendRanges_chain _ _ _ _, ?_, ?_, ?_⟩
  · obtain ⟨k, rfl⟩ : ∃ k, num_workers = k + 1 := ⟨num_workers - 1, by omega⟩
    simp [List.range'_succ, sendRanges]
  · have hne : List.range' 1 num_workers ≠ [] := by
      intro h
      have := congrArg List.length h
      simp at this
      omega
    rw [sendRanges_last _ _ _ _ hne, rowsTotal_partition size num_workers hn]
    simp
  · rw [sendRanges_rows, rowsTotal_partition size num_workers hn]
    simp
  · intro e he hlt
    have hw : e.worker ∈ List.range' 1 num_workers := by
      have hm := List.mem_map_of_mem RowRange.worker he
      rwa [sendRanges_workers] at hm
    have hle : e.worker ≤ num_workers := by
      have := List.mem_range'_1.mp hw
      omega
    have hq : size / num_workers = 0 := Nat.div_eq_of_lt (by omega)
    have hr : size % num_workers = size := Nat.mod_eq_of_lt (by omega)
    have hend := sendRanges_mem _ _ _ _ e he
    rw [hq, hr, if_neg (by omega)] at hend
    have hx : e.x_end = e.x_start - 1 := by rw [hend]; simp
    refine ⟨hx, ?_⟩
    rw [rowsOf, hx]
    simp

/-- Witness of `static_ranges`: the source's grid, `SIZE = 30`, with four workers. -/
theorem static_ranges_witness :
    1 ≤ 4 ∧ ∃ sends, static_partition SIZE 4 = some sends ∧
      sends.map RowRange.worker = List.range' 1 4 ∧
      sends.head?.map RowRange.x_start = some 0 ∧
      List.Chain' (fun a b : RowRange => b.x_start = a.x_end + 1) sends ∧
      sends.getLast?.map RowRange.x_end = some ((SIZE : Int) - 1) ∧
      sends.flatMap (fun r => rowsOf r.x_start r.x_end) =
        (List.range SIZE).map (fun k : Nat => (k : Int)) ∧
      (∀ r ∈ sends, SIZE < r.worker →
        r.x_end = r.x_start - 1 ∧ rowsOf r.x_start r.x_end = []) :=
  ⟨by decide, static_ranges SIZE 4 (by decide)⟩

/-- C14: with at least one worker, for every scheduler the run returns, as the final loop
applied to a state `st0` at the head of the receive loop, and for every worker `w` of rank
`1..num_slaves`: if `w` was sent a task, the master sends it two termination messages, one
in the receive loop and one in the final loop; if `w` was sent no task, it sends it one, in
the final loop; and the termination messages sent in the run number
`num_slaves + min(num_slaves, total_tasks)`. -/
theorem terminate_counts {α : Type} [AddCommMonoid α] (heavy : Nat → Nat → α)
    (size num_slaves : Nat) (hn : 1 ≤ num_slaves) (sched : Nat → Nat) :
    ∃ st0, Reachable heavy size num_slaves st0 ∧
      master_process heavy size num_slaves sched = some (finalSweep num_slaves st0) ∧
      (∀ w, 1 ≤ w → w ≤ num_slaves →
        (1 ≤ taskCount w (finalSweep num_slaves st0).trace →
          terminateCount w st0.trace = 1 ∧
          terminateCount w (sweepTrace num_slaves : List (Event α)) = 1 ∧
          terminateCount w (finalSweep num_slaves st0).trace = 2) ∧
        (taskCount w (finalSweep num_slaves st0).trace = 0 →
          terminateCount w st0.trace = 0 ∧
          terminateCount w (sweepTrace num_slaves : List (Event α)) = 1 ∧
          terminateCount w (finalSweep num_slaves st0).trace = 1)) ∧
      terminateSends (finalSweep num_slaves st0).trace =
        num_slaves + min num_slaves (size * size) := by
  obtain ⟨st0, hr, hd, hrun⟩ := master_process_complete heavy size hn sched
  have hdone := reachable_done hr hd
  refine ⟨st0, hr, hrun, ?_, ?_⟩
  · intro w h1 h2
    have hsw : terminateCount w (sweepTrace num_slaves : List (Event α)) = 1 := by
      rw [terminateCount_sweepTrace, if_pos ⟨h1, h2⟩]
    have htc : taskCount w (finalSweep num_slaves st0).trace = taskCount w st0.trace := by
      rw [finalSweep_trace, taskCount_append, taskCount_sweepTrace, Nat.add_zero]
    rw [htc, finalSweep_trace, terminateCount_append, hsw]
    by_cases hw : w ≤ initial_tasks size num_slaves
    · obtain ⟨idxs, _, hin⟩ := (done_inbox hdone.1 w).1 ⟨h1, hw⟩
      have hpos := reachable_taskCount_pos hr h1 hw
      have hone : terminateCount w st0.trace = 1 := by
        rw [terminateCount, hin, List.countP_append, countP_terminate_map]
        simp [terminateMsg]
      exact ⟨fun _ => ⟨hone, rfl, by rw [hone]⟩, fun h0 => by omega⟩
    · have hin := (done_inbox hdone.1 w).2 (fun h => hw h.2)
      have hzero : terminateCount w st0.trace = 0 := by rw [terminateCount, hin]; rfl
      have htz : taskCount w st0.trace = 0 := by rw [taskCount, hin]; rfl
      exact ⟨fun hp => by omega, fun _ => ⟨hzero, rfl, by rw [hzero]⟩⟩
  · have hts := reachable_terminateSends hr
    have hmin : initial_tasks size num_slaves = min num_slaves (size * size) := by
      unfold initial_tasks
      split <;> omega
    rw [finalSweep_trace, terminateSends_append, terminateSends_sweepTrace, ← hmin]
    have := hdone.2.1
    omega

/-- Witness of `terminate_counts`: a 2 x 2 grid, three workers, the scheduler that makes
choice `k` at the `k`-th receive; six termination messages in all. -/
theorem terminate_counts_witness :
    1 ≤ 3 ∧ ∃ st0, Reachable heavyEx 2 3 st0 ∧
      master_process heavyEx 2 3 (fun k => k) = some (finalSweep 3 st0) ∧
      terminateSends (finalSweep 3 st0).trace = 3 + min 3 (2 * 2) :=
  ⟨by decide,
    let ⟨st0, hr, hrun, _, htot⟩ := terminate_counts heavyEx 2 3 (by decide) (fun k => k)
    ⟨st0, hr, hrun, htot⟩⟩

/-- C15: `main` of `static.c` does not test `num_workers`: with one process
(`num_workers = 0`) rank 0 evaluates `SIZE / num_workers` and `SIZE % num_workers` with a
zero divisor, and the run stops there; with two processes or more both divisions have a
non-zero divisor and a value, and every rank returns status 0. -/
theorem static_zero_divisor :
    (static_main 0 1 = none ∧ int_div SIZE (1 - 1) = none ∧ int_mod SIZE (1 - 1) = none) ∧
    ∀ rank size, 2 ≤ size →
      size - 1 ≠ 0 ∧
      int_div SIZE (size - 1) = some (SIZE / (size - 1)) ∧
      int_mod SIZE (size - 1) = some (SIZE % (size - 1)) ∧
      ∃ sends, static_main rank size = some (0, sends) := by
  refine ⟨by decide, ?_⟩
  intro rank size hs
  have h0 : size - 1 ≠ 0 := by omega
  refine ⟨h0, by simp [int_div, h0], by simp [int_mod, h0], ?_⟩
  by_cases hr : rank = 0
  · refine ⟨sendRanges (SIZE / (size - 1)) (SIZE % (size - 1)) (List.range' 1 (size - 1)) 0, ?_⟩
    simp [static_main, hr, static_partition_eq SIZE (size - 1) (by omega)]
  · exact ⟨[], by simp [static_main, hr]⟩

/-- C16: for `num_workers ≥ 1` the static partitioner is balanced: the worker of rank `w`
is sent a range of `size / num_workers + 1` rows if `w ≤ size % num_workers` and of
`size / num_workers` rows otherwise, that number being `x_end - x_start + 1`; the row
counts of any two workers differ by at most 1, and the row counts of the workers
`1..num_workers` sum to `size`. -/
theorem static_balanced (size num_workers : Nat) (hn : 1 ≤ num_workers) :
    ∃ sends, static_partition size num_workers = some sends ∧
      sends.map RowRange.worker = List.range' 1 num_workers ∧
      (∀ e ∈ sends,
        rowCount e =
          size / num_workers + (if e.worker ≤ size % num_workers then 1 else 0) ∧
        e.x_end - e.x_start + 1 = (rowCount e : Int)) ∧
      (∀ a ∈ sends, ∀ b ∈ sends, rowCount a ≤ rowCount b + 1) ∧
      (sends.map rowCount).sum = size := by
  have hcount : ∀ e ∈ sendRanges (size / num_workers) (size % num_workers)
      (List.range' 1 num_workers) 0,
      rowCount e =
          size / num_workers + (if e.worker ≤ size % num_workers then 1 else 0) ∧
        e.x_end - e.x_start + 1 = (rowCount e : Int) := by
    intro e he
    have hend := sendRanges_mem _ _ _ _ e he
    have hc : rowCount e =
        size / num_workers + (if e.worker ≤ size % num_workers then 1 else 0) := by
      rw [rowCount, hend, rowsOf_rows, List.length_map, List.length_range]
    refine ⟨hc, ?_⟩
    rw [hc, hend]
    ring
  refine ⟨_, static_partition_eq size num_workers hn, sendRanges_workers _ _ _ _, hcount, ?_, ?_⟩
  · intro a ha b hb
    rw [(hcount a ha).1, (hcount b hb).1]
    split <;> split <;> omega
  · rw [sendRanges_rowCount]
    exact rowsTotal_partition size num_workers hn

/-- Witness of `static_balanced`: the source's grid, `SIZE = 30`, with four workers, who get
8, 8, 7 and 7 rows. -/
theorem static_balanced_witness :
    1 ≤ 4 ∧ ∃ sends, static_partition SIZE 4 = some sends ∧
      sends.map rowCount = [8, 8, 7, 7] ∧ (sends.map rowCount).sum = SIZE :=
  ⟨by decide,
    let ⟨sends, h1, _, _, _, h5⟩ := static_balanced SIZE 4 (by decide)
    ⟨sends, h1, by
      have h : static_partition SIZE 4 = some [⟨1, 0, 7⟩, ⟨2, 8, 15⟩, ⟨3, 16, 22⟩,
        ⟨4, 23, 29⟩] := by decide
      rw [h] at h1
      cases h1
      decide, h5⟩⟩

end ParallelHW
